import Mathlib

/-
Verification of the xfs filesystem utility module (src/xfs.go) against its
natural-language specification.

The embedding models a POSIX-like host filesystem as a finite association
list from paths (lists of name components) to entries (regular file with
content and permission bits, directory with permission bits, or symbolic
link with a target path), together with a list of paths on which a metadata
query fails with a permission error.  Each Go function that the claims
mention is translated into a Lean function over this state; fallible
operations return the new state paired with an optional error kind.
File contents and text lines are modelled as lists of characters
(Go strings restricted to single-byte characters).
-/

namespace xfs

/-- Kinds of errors surfaced by the modelled host calls (the error taxonomy
of the spec: not-found, permission, not-a-directory, is-a-directory,
already-exists, too many levels of symbolic links, scanner token too long,
walk fuel exhaustion, and a generic I/O failure). -/
inductive ErrKind where
  | notFound
  | permission
  | notDir
  | isDirectory
  | alreadyExists
  | tooManyLinks
  | tooLong
  | fuelOut
  | ioErr
deriving DecidableEq, Repr

/-- A directory entry of the modelled filesystem: a regular file with
content and permission bits, a directory with permission bits, or a
symbolic link with a target path. -/
inductive Entry where
  | file (content : List Char) (perm : Nat)
  | dir (perm : Nat)
  | symlink (target : List String)
deriving DecidableEq, Repr

/-- Paths are lists of name components measured from the root. -/
abbrev Path := List String

/-- Whether an entry is a directory (FileInfo.IsDir). -/
def Entry.isDir : Entry → Bool
  | Entry.dir _ => true
  | _ => false

/-- Whether an entry is a symbolic link (Mode and ModeSymlink). -/
def Entry.isLink : Entry → Bool
  | Entry.symlink _ => true
  | _ => false

/-- Permission bits reported by Mode() as consumed by chmod: stored bits
for files and directories, 0o777 for a symbolic link (Linux lstat). -/
def Entry.permBits : Entry → Nat
  | Entry.file _ m => m % 4096
  | Entry.dir m => m % 4096
  | Entry.symlink _ => 511

/-- The modelled filesystem: entries keyed by path, plus the paths on
which any metadata query fails with a permission error. -/
structure FS where
  entries : List (Path × Entry)
  denied : List Path
deriving DecidableEq, Repr

/-- Association-list lookup by path. -/
def assocFind : List (Path × Entry) → Path → Option Entry
  | [], _ => none
  | (q, e) :: rest, p => if q = p then some e else assocFind rest p

/-- Association-list update or insert by path. -/
def assocSet : List (Path × Entry) → Path → Entry → List (Path × Entry)
  | [], p, e => [(p, e)]
  | (q, e0) :: rest, p, e =>
      if q = p then (p, e) :: rest else (q, e0) :: assocSet rest p e

/-- Entry stored at a path; the empty path is the root directory, which
always exists. -/
def lookupEntry (fs : FS) (p : Path) : Option Entry :=
  if p = [] then some (Entry.dir 493) else assocFind fs.entries p

/-- Replace or insert the entry at a path. -/
def updateEntry (fs : FS) (p : Path) (e : Entry) : FS :=
  FS.mk (assocSet fs.entries p e) fs.denied

/-- Maximum symbolic-link chain length followed by the host (ELOOP bound). -/
def linkFuel : Nat := 40

/-- Follow symbolic links starting at a path until a non-link entry is
reached, returning the final path and its entry (used by host calls that
follow links: stat, open for reading). -/
def resolvePath (fs : FS) : Nat → Path → Except ErrKind (Path × Entry)
  | 0, _ => Except.error ErrKind.tooManyLinks
  | Nat.succ fuel, p =>
      if p ∈ fs.denied then Except.error ErrKind.permission
      else
        match lookupEntry fs p with
        | some (Entry.symlink t) => resolvePath fs fuel t
        | some e => Except.ok (p, e)
        | none => Except.error ErrKind.notFound

/-- Follow symbolic links for a call that may create the final path
(open with O_CREATE, i.e. os.Create and os.WriteFile): a dangling end of
the chain is returned as the place to create. -/
def resolveForWrite (fs : FS) : Nat → Path → Except ErrKind Path
  | 0, _ => Except.error ErrKind.tooManyLinks
  | Nat.succ fuel, p =>
      if p ∈ fs.denied then Except.error ErrKind.permission
      else
        match lookupEntry fs p with
        | some (Entry.symlink t) => resolveForWrite fs fuel t
        | _ => Except.ok p

/-- Model of os.Stat: follow links, then report the entry. -/
def osStat (fs : FS) (p : Path) : Except ErrKind Entry :=
  match resolvePath fs linkFuel p with
  | Except.error k => Except.error k
  | Except.ok qe => Except.ok qe.2

/-- Model of os.Lstat: report the entry at the path itself. -/
def osLstat (fs : FS) (p : Path) : Except ErrKind Entry :=
  if p ∈ fs.denied then Except.error ErrKind.permission
  else
    match lookupEntry fs p with
    | some e => Except.ok e
    | none => Except.error ErrKind.notFound

/-- Model of os.IsNotExist applied to the error of a stat result. -/
def isNotExistRes (r : Except ErrKind Entry) : Bool :=
  match r with
  | Except.error ErrKind.notFound => true
  | _ => false

/-- Model of xfs.Exists (src/xfs.go:179): stat the path and report
err == nil or not os.IsNotExist(err). -/
def Exists (fs : FS) (p : Path) : Bool :=
  let r := osStat fs p
  r.isOk || !(isNotExistRes r)

/-- Model of xfs.IsFile (src/xfs.go:236): stat succeeds and the entry is
not a directory; any failure yields false. -/
def IsFile (fs : FS) (p : Path) : Bool :=
  match osStat fs p with
  | Except.error _ => false
  | Except.ok e => !e.isDir

/-- Model of xfs.IsDir (src/xfs.go:249): stat succeeds and the entry is a
directory; any failure yields false. -/
def IsDir (fs : FS) (p : Path) : Bool :=
  match osStat fs p with
  | Except.error _ => false
  | Except.ok e => e.isDir

/-- Model of xfs.IsSymlink (src/xfs.go:262): lstat succeeds and the entry
has the symbolic-link mode bit; any failure yields false. -/
def IsSymlink (fs : FS) (p : Path) : Bool :=
  match osLstat fs p with
  | Except.error _ => false
  | Except.ok e => e.isLink

/-- Model of os.Create: follow links, fail on a directory, truncate an
existing file keeping its permission bits, or create an empty file with
mode 0o666 when the parent resolves to a directory.  Returns the new
state and the final path of the created file. -/
def osCreate (fs : FS) (p : Path) : Except ErrKind (FS × Path) :=
  match resolveForWrite fs linkFuel p with
  | Except.error k => Except.error k
  | Except.ok q =>
      match lookupEntry fs q with
      | some (Entry.dir _) => Except.error ErrKind.isDirectory
      | some (Entry.file _ m) =>
          Except.ok (updateEntry fs q (Entry.file [] m), q)
      | some (Entry.symlink _) => Except.error ErrKind.ioErr
      | none =>
          match resolvePath fs linkFuel q.dropLast with
          | Except.ok (_, Entry.dir _) =>
              Except.ok (updateEntry fs q (Entry.file [] 438), q)
          | Except.ok _ => Except.error ErrKind.notDir
          | Except.error k => Except.error k

/-- Model of os.Chmod: follow links and replace the permission bits of the
final entry (masked to 0o7777). -/
def osChmod (fs : FS) (p : Path) (m : Nat) : FS × Option ErrKind :=
  match resolvePath fs linkFuel p with
  | Except.error k => (fs, some k)
  | Except.ok (q, Entry.file c _) =>
      (updateEntry fs q (Entry.file c (m % 4096)), none)
  | Except.ok (q, Entry.dir _) =>
      (updateEntry fs q (Entry.dir (m % 4096)), none)
  | Except.ok (_, Entry.symlink _) => (fs, none)

/-- Model of os.Mkdir: fail on denied or existing paths, require the
parent to resolve to a directory, then insert a directory entry. -/
def osMkdir (fs : FS) (p : Path) (m : Nat) : FS × Option ErrKind :=
  if p ∈ fs.denied then (fs, some ErrKind.permission)
  else
    match lookupEntry fs p with
    | some _ => (fs, some ErrKind.alreadyExists)
    | none =>
        match resolvePath fs linkFuel p.dropLast with
        | Except.ok (_, Entry.dir _) =>
            (updateEntry fs p (Entry.dir (m % 4096)), none)
        | Except.ok _ => (fs, some ErrKind.notDir)
        | Except.error k => (fs, some k)

/-- Recursion scheme of os.MkdirAll over the reversed component list of
the path (the head of the reversed list is the last path component, so
the structural tail is the parent): succeed if the path stats as a
directory, fail if it stats as something else, otherwise recursively
create the parent and then the directory itself; a failed Mkdir is
forgiven when an lstat afterwards reports a directory. -/
def mkdirAllRev (m : Nat) : List String → FS → FS × Option ErrKind
  | [], fs =>
      match osStat fs [] with
      | Except.ok e =>
          if e.isDir then (fs, none) else (fs, some ErrKind.notDir)
      | Except.error _ => (fs, some ErrKind.notFound)
  | x :: rev, fs =>
      match osStat fs ((x :: rev).reverse) with
      | Except.ok e =>
          if e.isDir then (fs, none) else (fs, some ErrKind.notDir)
      | Except.error _ =>
          match mkdirAllRev m rev fs with
          | (fs1, some k) => (fs1, some k)
          | (fs1, none) =>
              match osMkdir fs1 ((x :: rev).reverse) m with
              | (fs2, none) => (fs2, none)
              | (fs2, some k) =>
                  match osLstat fs2 ((x :: rev).reverse) with
                  | Except.ok e1 =>
                      if e1.isDir then (fs2, none) else (fs2, some k)
                  | Except.error _ => (fs2, some k)

/-- Model of os.MkdirAll on a path given root-first. -/
def mkdirAll (fs : FS) (p : Path) (m : Nat) : FS × Option ErrKind :=
  mkdirAllRev m p.reverse fs

/-- Model of xfs.EnsureDir (src/xfs.go:189): no-op when Exists reports
true, otherwise MkdirAll with the given permission bits. -/
def EnsureDir (fs : FS) (p : Path) (m : Nat) : FS × Option ErrKind :=
  if Exists fs p then (fs, none) else mkdirAll fs p m

/-- Model of xfs.EnsureFile (src/xfs.go:210): no-op when Exists reports
true, otherwise create the file, close it, and chmod it to the given
permission bits. -/
def EnsureFile (fs : FS) (p : Path) (m : Nat) : FS × Option ErrKind :=
  if Exists fs p then (fs, none)
  else
    match osCreate fs p with
    | Except.error k => (fs, some k)
    | Except.ok (fs1, _) => osChmod fs1 p m

/-- Model of os.ReadFile: follow links and return a file's content; a
directory gives an is-a-directory error. -/
def osReadFile (fs : FS) (p : Path) : Except ErrKind (List Char) :=
  match resolvePath fs linkFuel p with
  | Except.error k => Except.error k
  | Except.ok (_, Entry.file c _) => Except.ok c
  | Except.ok (_, Entry.dir _) => Except.error ErrKind.isDirectory
  | Except.ok (_, Entry.symlink _) => Except.error ErrKind.ioErr

/-- Model of os.WriteFile: open with O_WRONLY, O_CREATE and O_TRUNC,
then write the whole content: an existing file is truncated and
overwritten keeping its permission bits, a missing file is created with
the given permission bits when the parent resolves to a directory. -/
def osWriteFile (fs : FS) (p : Path) (data : List Char) (m : Nat) :
    FS × Option ErrKind :=
  match resolveForWrite fs linkFuel p with
  | Except.error k => (fs, some k)
  | Except.ok q =>
      match lookupEntry fs q with
      | some (Entry.dir _) => (fs, some ErrKind.isDirectory)
      | some (Entry.file _ m0) =>
          (updateEntry fs q (Entry.file data m0), none)
      | some (Entry.symlink _) => (fs, some ErrKind.ioErr)
      | none =>
          match resolvePath fs linkFuel q.dropLast with
          | Except.ok (_, Entry.dir _) =>
              (updateEntry fs q (Entry.file data (m % 4096)), none)
          | Except.ok _ => (fs, some ErrKind.notDir)
          | Except.error k => (fs, some k)

/-- Content visible at a path through os.ReadFile, as an option. -/
def contentAt (fs : FS) (p : Path) : Option (List Char) :=
  match osReadFile fs p with
  | Except.ok c => some c
  | Except.error _ => none

/-- Model of the unexported copyFile (src/xfs.go:590): no-op when the
destination exists and overwrite is false; otherwise open the source
(following links), create or truncate the destination, stream the bytes
read from the resolved source at copy time (so reading a directory fails
with an is-a-directory error after the destination was already
truncated), and finally chmod the destination to the permission bits of
the supplied FileInfo. -/
def copyFile (fs : FS) (src dst : Path) (info : Entry) (overwrite : Bool) :
    FS × Option ErrKind :=
  if Exists fs dst && !overwrite then (fs, none)
  else
    match resolvePath fs linkFuel src with
    | Except.error k => (fs, some k)
    | Except.ok (qsrc, _) =>
        match osCreate fs dst with
        | Except.error k => (fs, some k)
        | Except.ok (fs2, qdst) =>
            match lookupEntry fs2 qsrc with
            | some (Entry.file data _) =>
                match lookupEntry fs2 qdst with
                | some (Entry.file _ mdst) =>
                    osChmod (updateEntry fs2 qdst (Entry.file data mdst))
                      dst info.permBits
                | _ => (fs2, some ErrKind.ioErr)
            | some (Entry.dir _) => (fs2, some ErrKind.isDirectory)
            | _ => (fs2, some ErrKind.ioErr)

/-- Model of xfs.CopyFile (src/xfs.go:121): stat the source first,
surfacing its error, then run the copy helper. -/
def CopyFile (fs : FS) (src dst : Path) (overwrite : Bool) :
    FS × Option ErrKind :=
  match osStat fs src with
  | Except.error k => (fs, some k)
  | Except.ok info => copyFile fs src dst info overwrite

/-- Insert a string into a sorted list of strings. -/
def insertStr (s : String) : List String → List String
  | [] => [s]
  | t :: ts => if s ≤ t then s :: t :: ts else t :: insertStr s ts

/-- Insertion sort on strings (lexical directory order of readDirNames). -/
def sortStrs : List String → List String
  | [] => []
  | s :: ss => insertStr s (sortStrs ss)

/-- Names of the direct children of a directory path, in lexical order,
as read by filepath.Walk before descending. -/
def childNames (fs : FS) (p : Path) : List String :=
  sortStrs
    ((fs.entries.filterMap
      (fun pe => if pe.1.dropLast = p then pe.1.getLast? else none)).dedup)

/-- The visitor passed to filepath.Walk by CopyDir (src/xfs.go:94): build
the destination path from the relative path, then EnsureDir for a
directory entry and copyFile for anything else, passing the lstat info. -/
def cdWalkFn (src dst : Path) (overwrite : Bool) (path : Path)
    (info : Entry) (fs : FS) : FS × Option ErrKind :=
  let dstPath := dst ++ path.drop src.length
  if info.isDir then EnsureDir fs dstPath info.permBits
  else copyFile fs path dstPath info overwrite

/-- Depth-first traversal of filepath.Walk over a worklist of pending
paths: pop a path, lstat it (surfacing the error through the visitor,
which returns it), run the visitor, and for a directory push its
lexically sorted children in front.  Fuel bounds the number of visits. -/
def walkLoop (src dst : Path) (overwrite : Bool) :
    Nat → List Path → FS → FS × Option ErrKind
  | _, [], fs => (fs, none)
  | 0, _ :: _, fs => (fs, some ErrKind.fuelOut)
  | Nat.succ fuel, p :: rest, fs =>
      match osLstat fs p with
      | Except.error k => (fs, some k)
      | Except.ok info =>
          match cdWalkFn src dst overwrite p info fs with
          | (fs1, some k) => (fs1, some k)
          | (fs1, none) =>
              if info.isDir then
                walkLoop src dst overwrite fuel
                  ((childNames fs1 p).map (fun n => p ++ [n]) ++ rest) fs1
              else walkLoop src dst overwrite fuel rest fs1

/-- Model of xfs.CopyDir (src/xfs.go:93): walk the source tree in lexical
order with the CopyDir visitor. -/
def CopyDir (fs : FS) (src dst : Path) (overwrite : Bool) :
    FS × Option ErrKind :=
  walkLoop src dst overwrite (fs.entries.length + 1) [src] fs

/-- Model of bufio.MaxScanTokenSize: the largest token the default line
scanner buffers before failing with ErrTooLong. -/
def maxScanTokenSize : Nat := 65536

/-- Split a character list on newline characters; always returns at least
one (possibly empty) final segment, mirroring the segments the line
scanner sees. -/
def splitNL : List Char → List (List Char)
  | [] => [[]]
  | c :: cs =>
      if c = '\n' then [] :: splitNL cs
      else
        match splitNL cs with
        | [] => [[c]]
        | s :: ss => (c :: s) :: ss

/-- Model of bufio dropCR: strip one trailing carriage return. -/
def dropCR (l : List Char) : List Char :=
  if l.getLast? = some '\r' then l.dropLast else l

/-- Process the newline-separated segments the way bufio.Scanner with
ScanLines does: a segment of at least maxScanTokenSize characters makes
the scan stop with ErrTooLong (the buffer fills before a newline or the
end of input is seen); otherwise each segment, except a final empty one,
becomes a line with one trailing carriage return stripped. -/
def processSegments : List (List Char) → List (List Char) × Option ErrKind
  | [] => ([], none)
  | [last] =>
      if maxScanTokenSize ≤ last.length then ([], some ErrKind.tooLong)
      else if last = [] then ([], none)
      else ([dropCR last], none)
  | seg :: rest =>
      if maxScanTokenSize ≤ seg.length then ([], some ErrKind.tooLong)
      else
        match processSegments rest with
        | (ls, e) => (dropCR seg :: ls, e)

/-- The lines and final error produced by scanning a whole content with
bufio.Scanner and ScanLines. -/
def scanLines (data : List Char) : List (List Char) × Option ErrKind :=
  processSegments (splitNL data)

/-- Model of xfs.ReadFileLines (src/xfs.go:443): read the whole file, then
scan it line by line, returning the lines collected so far together with
the scanner's error. -/
def ReadFileLines (fs : FS) (p : Path) : List (List Char) × Option ErrKind :=
  match osReadFile fs p with
  | Except.error k => ([], some k)
  | Except.ok data => scanLines data

/-- Model of xfs.WriteTextFile (src/xfs.go:586): one whole-file write. -/
def WriteTextFile (fs : FS) (p : Path) (data : List Char) (m : Nat) :
    FS × Option ErrKind :=
  osWriteFile fs p data m

/-- The string built by the loop of WriteFileLinesSep: append every line
followed by the separator to the builder. -/
def joinLinesSep (lines : List (List Char)) (sep : List Char) : List Char :=
  lines.foldl (fun acc l => acc ++ l ++ sep) []

/-- Model of xfs.WriteFileLinesSep (src/xfs.go:566): join the lines with
the separator appended after every line, then one whole-file write. -/
def WriteFileLinesSep (fs : FS) (p : Path) (lines : List (List Char))
    (sep : List Char) (m : Nat) : FS × Option ErrKind :=
  WriteTextFile fs p (joinLinesSep lines sep) m

/-- Modelled from the spec: the constant EOL used by WriteFileLines is not
part of src/xfs.go; the spec fixes it as the host's conventional
line-ending used as the separator, which on the modelled POSIX host is a
single newline character. -/
def EOL : List Char := ['\n']

/-- Model of xfs.WriteFileLines (src/xfs.go:551): WriteFileLinesSep with
the platform end-of-line separator. -/
def WriteFileLines (fs : FS) (p : Path) (lines : List (List Char))
    (m : Nat) : FS × Option ErrKind :=
  WriteFileLinesSep fs p lines EOL m

/-
String-level model of xfs.Resolve (src/xfs.go:376) and the path/filepath
functions it calls, on a POSIX host.  Go strings are modelled as lists of
characters (single-byte characters, so byte indexing is list indexing).
-/

/-- Host environment for Resolve: the result of os.Getwd and of
os.UserHomeDir, where none models a failing call. -/
structure OsEnv where
  getwdResult : Option (List Char)
  homeResult : Option (List Char)
deriving DecidableEq, Repr

/-- Errors Resolve can return. -/
inductive RErr where
  | getwdErr
  | homeErr
deriving DecidableEq, Repr

/-- Outcome of Resolve: an out-of-range index (a Go panic), an error, or a
resolved path. -/
inductive RResult where
  | panicOOB
  | failure (e : RErr)
  | success (p : List Char)
deriving DecidableEq, Repr

/-- Model of filepath.IsAbs on a POSIX host: the path begins with a
separator. -/
def isAbsL (l : List Char) : Bool :=
  match l with
  | [] => false
  | c :: _ => decide (c = '/')

/-- Split a path on separator characters (used to model filepath.Clean). -/
def splitSlashL : List Char → List (List Char)
  | [] => [[]]
  | c :: cs =>
      if c = '/' then [] :: splitSlashL cs
      else
        match splitSlashL cs with
        | [] => [[c]]
        | s :: ss => (c :: s) :: ss

/-- The element processing of filepath.Clean: skip empty and dot
elements, pop on dot-dot when possible (never past the root when the
path is rooted; dot-dot is kept when the path is relative and there is
nothing to pop). -/
def cleanParts : List (List Char) → Bool → List (List Char) →
    List (List Char)
  | [], _, acc => acc.reverse
  | e :: es, rooted, acc =>
      if e = [] ∨ e = ['.'] then cleanParts es rooted acc
      else if e = ['.', '.'] then
        match acc with
        | top :: accRest =>
            if top = ['.', '.'] then cleanParts es rooted (e :: top :: accRest)
            else cleanParts es rooted accRest
        | [] => if rooted then cleanParts es rooted []
                else cleanParts es rooted [['.', '.']]
      else cleanParts es rooted (e :: acc)

/-- Join path elements with separators. -/
def interSlash : List (List Char) → List Char
  | [] => []
  | [x] => x
  | x :: xs => x ++ '/' :: interSlash xs

/-- Model of filepath.Clean on a POSIX host. -/
def cleanL (s : List Char) : List Char :=
  if s = [] then ['.']
  else
    let rooted := isAbsL s
    let parts := cleanParts (splitSlashL s) rooted []
    if rooted then '/' :: interSlash parts
    else if parts = [] then ['.']
    else interSlash parts

/-- Model of filepath.Join on two elements: empty elements are skipped
and the rest is cleaned; all-empty input gives the empty string. -/
def goJoin (a b : List Char) : List Char :=
  if a = [] then (if b = [] then [] else cleanL b)
  else cleanL (a ++ '/' :: b)

/-- Model of filepath.Abs: an absolute path is cleaned and returned;
otherwise the working directory is fetched (surfacing its failure) and
joined with the path. -/
def goAbs (env : OsEnv) (s : List Char) : Except RErr (List Char) :=
  if isAbsL s then Except.ok (cleanL s)
  else
    match env.getwdResult with
    | none => Except.error RErr.getwdErr
    | some wd => Except.ok (goJoin wd s)

/-- Lift the result of filepath.Abs into a Resolve outcome. -/
def absRes (r : Except RErr (List Char)) : RResult :=
  match r with
  | Except.error e => RResult.failure e
  | Except.ok s => RResult.success s

/-- Model of xfs.Resolve (src/xfs.go:376).  An absolute path is returned
unchanged.  An empty base is replaced by the working directory, whose
error is discarded (an assignment to the blank identifier), leaving an
empty base on failure.  The path's first byte is then inspected without a
length check, and its second byte whenever the first is a tilde or a dot:
each unchecked access is modelled by an option lookup whose none case is
the out-of-range panic.  A tilde-plus-separator path is joined onto the
home directory (surfacing a home lookup failure), a dot-plus-separator
path is joined onto the base without its first two bytes, and anything
else is joined onto the base whole; every join goes through
filepath.Abs. -/
def Resolve (env : OsEnv) (relative base : List Char) : RResult :=
  if isAbsL relative then RResult.success relative
  else
    let base1 :=
      if base = [] then
        match env.getwdResult with
        | some d => d
        | none => []
      else base
    match relative.get? 0 with
    | none => RResult.panicOOB
    | some c0 =>
        if c0 = '~' then
          match relative.get? 1 with
          | none => RResult.panicOOB
          | some c1 =>
              if c1 = '/' ∨ c1 = '\\' then
                match env.homeResult with
                | none => RResult.failure RErr.homeErr
                | some home =>
                    absRes (goAbs env (goJoin home (relative.drop 2)))
              else absRes (goAbs env (goJoin base1 relative))
        else if c0 = '.' then
          match relative.get? 1 with
          | none => RResult.panicOOB
          | some c1 =>
              if c1 = '/' ∨ c1 = '\\' then
                absRes (goAbs env (goJoin base1 (relative.drop 2)))
              else absRes (goAbs env (goJoin base1 relative))
        else absRes (goAbs env (goJoin base1 relative))

/-
Lemmas about the filesystem model.
-/

theorem assocFind_assocSet (l : List (Path × Entry)) (q : Path) (e : Entry)
    (r : Path) :
    assocFind (assocSet l q e) r = if r = q then some e else assocFind l r := by
  induction l with
  | nil =>
      by_cases h : q = r
      · subst h; simp [assocSet, assocFind]
      · simp [assocSet, assocFind, h, Ne.symm h]
  | cons pe rest ih =>
      obtain ⟨q0, e0⟩ := pe
      by_cases h0 : q0 = q
      · subst h0
        by_cases h : q0 = r
        · subst h; simp [assocSet, assocFind]
        · simp [assocSet, assocFind, h, Ne.symm h]
      · by_cases h : q0 = r
        · subst h
          simp [assocSet, assocFind, h0, Ne.symm h0]
        · simp [assocSet, assocFind, h0, h, ih]

theorem lookup_update (fs : FS) (q : Path) (e : Entry) (r : Path)
    (hq : q ≠ []) :
    lookupEntry (updateEntry fs q e) r =
      if r = q then some e else lookupEntry fs r := by
  by_cases hr : r = []
  · subst hr
    simp [lookupEntry, updateEntry, Ne.symm hq]
  · simp [lookupEntry, updateEntry, hr, assocFind_assocSet]

theorem assocSet_assocSet (l : List (Path × Entry)) (q : Path)
    (a b : Entry) : assocSet (assocSet l q a) q b = assocSet l q b := by
  induction l with
  | nil => simp [assocSet]
  | cons pe rest ih =>
      obtain ⟨q0, e0⟩ := pe
      by_cases h0 : q0 = q
      · subst h0
        simp [assocSet]
      · simp [assocSet, h0, ih]

theorem update_update (fs : FS) (q : Path) (a b : Entry) :
    updateEntry (updateEntry fs q a) q b = updateEntry fs q b := by
  simp [updateEntry, assocSet_assocSet]

theorem denied_update (fs : FS) (q : Path) (e : Entry) :
    (updateEntry fs q e).denied = fs.denied := rfl

theorem lookupEntry_nil (fs : FS) : lookupEntry fs [] = some (Entry.dir 493) := by
  simp [lookupEntry]

theorem resolvePath_spec (fs : FS) (fuel : Nat) :
    ∀ p q e, resolvePath fs fuel p = Except.ok (q, e) →
      lookupEntry fs q = some e ∧ e.isLink = false ∧ q ∉ fs.denied := by
  induction fuel with
  | zero => intro p q e h; simp [resolvePath] at h
  | succ n ih =>
      intro p q e h
      rw [resolvePath] at h
      by_cases hd : p ∈ fs.denied
      · simp [hd] at h
      · simp [hd] at h
        rcases hl : lookupEntry fs p with _ | e0
        · rw [hl] at h; simp at h
        · rw [hl] at h
          cases e0 with
          | file c m =>
              simp at h
              obtain ⟨rfl, rfl⟩ := h
              exact ⟨hl, rfl, hd⟩
          | dir m =>
              simp at h
              obtain ⟨rfl, rfl⟩ := h
              exact ⟨hl, rfl, hd⟩
          | symlink t => simp at h; exact ih t q e h

theorem resolveForWrite_spec (fs : FS) (fuel : Nat) :
    ∀ p q, resolveForWrite fs fuel p = Except.ok q →
      (∀ t, lookupEntry fs q ≠ some (Entry.symlink t)) ∧ q ∉ fs.denied := by
  induction fuel with
  | zero => intro p q h; simp [resolveForWrite] at h
  | succ n ih =>
      intro p q h
      rw [resolveForWrite] at h
      by_cases hd : p ∈ fs.denied
      · simp [hd] at h
      · simp [hd] at h
        rcases hl : lookupEntry fs p with _ | e0
        · rw [hl] at h; simp at h; obtain rfl := h
          refine ⟨?_, hd⟩
          intro t ht; rw [hl] at ht; cases ht
        · rw [hl] at h
          cases e0 with
          | file c m =>
              simp at h; obtain rfl := h
              refine ⟨?_, hd⟩
              intro t ht; rw [hl] at ht; cases ht
          | dir m =>
              simp at h; obtain rfl := h
              refine ⟨?_, hd⟩
              intro t ht; rw [hl] at ht; cases ht
          | symlink t => simp at h; exact ih t q h

theorem resolveForWrite_update (fs : FS) (e1 : Entry)
    (he1 : e1.isLink = false) (fuel : Nat) :
    ∀ p q, resolveForWrite fs fuel p = Except.ok q → q ≠ [] →
      resolvePath (updateEntry fs q e1) fuel p = Except.ok (q, e1) := by
  induction fuel with
  | zero => intro p q h; simp [resolveForWrite] at h
  | succ n ih =>
      intro p q h hq
      have hqspec := resolveForWrite_spec fs (Nat.succ n) p q h
      rw [resolveForWrite] at h
      rw [resolvePath]
      by_cases hd : p ∈ fs.denied
      · simp [hd] at h
      · simp [hd] at h
        have hd1 : p ∉ (updateEntry fs q e1).denied := by
          rw [denied_update]; exact hd
        simp only [hd1, if_neg, ite_false]
        rcases hl : lookupEntry fs p with _ | e0
        · rw [hl] at h; simp at h; obtain rfl := h
          rw [lookup_update fs _ e1 _ hq]
          simp only [if_pos rfl]
          cases e1 with
          | file c m => simp
          | dir m => simp
          | symlink t => simp [Entry.isLink] at he1
        · rw [hl] at h
          cases e0 with
          | file c m =>
              simp at h; obtain rfl := h
              rw [lookup_update fs _ e1 _ hq]
              simp only [if_pos rfl]
              cases e1 with
              | file c2 m2 => simp
              | dir m2 => simp
              | symlink t2 => simp [Entry.isLink] at he1
          | dir m =>
              simp at h; obtain rfl := h
              rw [lookup_update fs _ e1 _ hq]
              simp only [if_pos rfl]
              cases e1 with
              | file c2 m2 => simp
              | dir m2 => simp
              | symlink t2 => simp [Entry.isLink] at he1
          | symlink t =>
              simp at h
              have hpq : p ≠ q := by
                intro hpq; subst hpq
                exact hqspec.1 t hl
              rw [lookup_update fs _ e1 _ hq]
              simp only [if_neg hpq]
              rw [hl]
              simp only []
              exact ih t q h hq

theorem resolvePath_update (fs : FS) (q : Path) (e1 : Entry)
    (he1 : e1.isLink = false) (hq : q ≠ [])
    (hnq : ∀ t, lookupEntry fs q ≠ some (Entry.symlink t)) (fuel : Nat) :
    ∀ p r e, resolvePath fs fuel p = Except.ok (r, e) →
      resolvePath (updateEntry fs q e1) fuel p =
        Except.ok (r, if r = q then e1 else e) := by
  induction fuel with
  | zero => intro p r e h; simp [resolvePath] at h
  | succ n ih =>
      intro p r e h
      rw [resolvePath] at h
      rw [resolvePath]
      by_cases hd : p ∈ fs.denied
      · simp [hd] at h
      · simp [hd] at h
        have hd1 : p ∉ (updateEntry fs q e1).denied := by
          rw [denied_update]; exact hd
        simp only [hd1, ite_false, if_neg]
        rcases hl : lookupEntry fs p with _ | e0
        · rw [hl] at h; simp at h
        · rw [hl] at h
          cases e0 with
          | file c m =>
              simp at h
              obtain ⟨rfl, rfl⟩ := h
              rw [lookup_update fs _ e1 _ hq]
              by_cases hpq : p = q
              · simp only [hpq, if_pos rfl]
                cases e1 with
                | file c2 m2 => simp
                | dir m2 => simp
                | symlink t2 => simp [Entry.isLink] at he1
              · simp only [if_neg hpq]
                rw [hl]
          | dir m =>
              simp at h
              obtain ⟨rfl, rfl⟩ := h
              rw [lookup_update fs _ e1 _ hq]
              by_cases hpq : p = q
              · simp only [hpq, if_pos rfl]
                cases e1 with
                | file c2 m2 => simp
                | dir m2 => simp
                | symlink t2 => simp [Entry.isLink] at he1
              · simp only [if_neg hpq]
                rw [hl]
          | symlink t =>
              simp at h
              have hpq : p ≠ q := by
                intro hpq; subst hpq
                exact hnq t hl
              rw [lookup_update fs _ e1 _ hq]
              simp only [if_neg hpq]
              rw [hl]
              simp only []
              exact ih t r e h

/-
Lemmas about the line scanner.
-/

theorem splitNL_ne_nil (l : List Char) : splitNL l ≠ [] := by
  cases l with
  | nil => simp [splitNL]
  | cons c cs =>
      rw [splitNL]
      by_cases h : c = '\n'
      · simp [h]
      · simp only [h, ite_false, if_neg]
        rcases hs : splitNL cs with _ | ⟨s, ss⟩
        · simp
        · simp

theorem splitNL_append (l rest : List Char) (h : ∀ c ∈ l, c ≠ '\n') :
    splitNL (l ++ '\n' :: rest) = l :: splitNL rest := by
  induction l with
  | nil => simp [splitNL]
  | cons c cs ih =>
      have hc : c ≠ '\n' := h c (by simp)
      have ih2 := ih (fun c2 hc2 => h c2 (by simp [hc2]))
      rw [List.cons_append, splitNL]
      simp only [hc, ite_false, if_neg]
      rw [ih2]

theorem dropCR_eq (l : List Char) (h : l.getLast? ≠ some '\r') :
    dropCR l = l := by
  simp [dropCR, h]

/-
Lemmas about mkdirAll.
-/

theorem osMkdir_denied_eq (fs : FS) (p : Path) (m : Nat) :
    ((osMkdir fs p m).1).denied = fs.denied := by
  unfold osMkdir
  by_cases hd : p ∈ fs.denied
  · simp [hd]
  · simp only [hd, ite_false, if_neg]
    rcases hl : lookupEntry fs p with _ | e0
    · rcases hp : resolvePath fs linkFuel p.dropLast with k | qe
      · simp
      · obtain ⟨q0, e0⟩ := qe
        cases e0 <;> simp [denied_update]
    · simp

theorem osMkdir_ok (fs fs2 : FS) (p : Path) (m : Nat)
    (h : osMkdir fs p m = (fs2, none)) :
    p ∉ fs.denied ∧ lookupEntry fs p = none ∧
      fs2 = updateEntry fs p (Entry.dir (m % 4096)) := by
  unfold osMkdir at h
  by_cases hd : p ∈ fs.denied
  · simp [hd] at h
  · simp only [hd, ite_false, if_neg] at h
    rcases hl : lookupEntry fs p with _ | e0
    · rw [hl] at h
      rcases hp : resolvePath fs linkFuel p.dropLast with k | qe
      · rw [hp] at h; simp at h
      · rw [hp] at h
        obtain ⟨q0, e1⟩ := qe
        cases e1 with
        | file c m2 => simp at h
        | dir m2 =>
            simp at h
            exact ⟨hd, rfl, h.symm⟩
        | symlink t => simp at h
    · rw [hl] at h; simp at h

theorem mkdirAllRev_denied (m : Nat) :
    ∀ rev fs, ((mkdirAllRev m rev fs).1).denied = fs.denied := by
  intro rev
  induction rev with
  | nil =>
      intro fs
      rw [mkdirAllRev]
      rcases h : osStat fs [] with k | e
      · simp
      · by_cases hd : e.isDir <;> simp [hd]
  | cons x rev ih =>
      intro fs
      rw [mkdirAllRev]
      simp only [List.reverse_cons]
      rcases h : osStat fs (rev.reverse ++ [x]) with k | e
      · simp only []
        rcases hrec : mkdirAllRev m rev fs with ⟨fs1, e1⟩
        have hd1 : fs1.denied = fs.denied := by
          have := ih fs
          rw [hrec] at this
          exact this
        cases e1 with
        | some k1 => simp [hd1]
        | none =>
            simp only []
            rcases hmk : osMkdir fs1 (rev.reverse ++ [x]) m with ⟨fsm, em⟩
            have hdm : fsm.denied = fs1.denied := by
              have := osMkdir_denied_eq fs1 (rev.reverse ++ [x]) m
              rw [hmk] at this
              exact this
            cases em with
            | none => simp [hmk, hdm, hd1]
            | some k2 =>
                rcases hls : osLstat fsm (rev.reverse ++ [x]) with k3 | e3
                · simp [hmk, hls, hdm, hd1]
                · by_cases hd3 : e3.isDir <;> simp [hmk, hls, hd3, hdm, hd1]
      · by_cases hd : e.isDir <;> simp [hd]

theorem mkdirAll_denied (fs : FS) (p : Path) (m : Nat) :
    ((mkdirAll fs p m).1).denied = fs.denied :=
  mkdirAllRev_denied m p.reverse fs

theorem osMkdir_err (fs fs2 : FS) (p : Path) (m : Nat) (k : ErrKind)
    (h : osMkdir fs p m = (fs2, some k)) : fs2 = fs := by
  unfold osMkdir at h
  by_cases hd : p ∈ fs.denied
  · simp [hd] at h
    exact h.1.symm
  · simp only [hd, ite_false, if_neg] at h
    rcases hl : lookupEntry fs p with _ | e0
    · rw [hl] at h
      rcases hp : resolvePath fs linkFuel p.dropLast with k2 | qe
      · rw [hp] at h
        simp at h
        exact h.1.symm
      · rw [hp] at h
        obtain ⟨q0, e1⟩ := qe
        cases e1 with
        | file c m2 =>
            simp at h
            exact h.1.symm
        | dir m2 => simp at h
        | symlink t =>
            simp at h
            exact h.1.symm
    · rw [hl] at h
      simp at h
      exact h.1.symm

theorem osLstat_ok (fs : FS) (p : Path) (e : Entry)
    (h : osLstat fs p = Except.ok e) :
    p ∉ fs.denied ∧ lookupEntry fs p = some e := by
  unfold osLstat at h
  by_cases hd : p ∈ fs.denied
  · simp [hd] at h
  · simp only [hd, ite_false, if_neg] at h
    rcases hl : lookupEntry fs p with _ | e0
    · rw [hl] at h; simp at h
    · rw [hl] at h
      simp at h
      exact ⟨hd, by rw [h]⟩

theorem Exists_of_lookup (fs : FS) (p : Path) (e : Entry)
    (he : e.isLink = false)
    (hl : lookupEntry fs p = some e) (hd : p ∉ fs.denied) :
    Exists fs p = true := by
  have h40 : linkFuel = Nat.succ 39 := rfl
  unfold Exists osStat
  rw [h40, resolvePath]
  simp only [hd, ite_false, if_neg]
  rw [hl]
  cases e with
  | file c m => simp [Except.isOk, Except.toBool]
  | dir m2 => simp [Except.isOk, Except.toBool]
  | symlink t => simp [Entry.isLink] at he

theorem stat_error_of_not_exists (fs : FS) (p : Path)
    (h : Exists fs p = false) :
    osStat fs p = Except.error ErrKind.notFound := by
  unfold Exists at h
  rcases hs : osStat fs p with k | e
  · rw [hs] at h
    cases k <;> simp_all [isNotExistRes]
  · rw [hs] at h
    simp [Except.isOk, Except.toBool] at h

theorem mkdirAllRev_exists (m : Nat) :
    ∀ rev fs fs2, mkdirAllRev m rev fs = (fs2, none) →
      Exists fs2 rev.reverse = true := by
  intro rev
  induction rev with
  | nil =>
      intro fs fs2 h
      rw [mkdirAllRev] at h
      rcases hs : osStat fs [] with k | e0
      · rw [hs] at h; simp at h
      · rw [hs] at h
        by_cases hd : e0.isDir
        · simp [hd] at h
          obtain rfl := h
          simp [Exists, hs, Except.isOk, Except.toBool]
        · simp [hd] at h
  | cons x rev ih =>
      intro fs fs2 h
      rw [mkdirAllRev] at h
      simp only [List.reverse_cons] at h ⊢
      rcases hs : osStat fs (rev.reverse ++ [x]) with k | e0
      · rw [hs] at h
        simp only [] at h
        rcases hrec : mkdirAllRev m rev fs with ⟨fs1, e1⟩
        rw [hrec] at h
        cases e1 with
        | some k1 => simp at h
        | none =>
            simp only [] at h
            rcases hmk : osMkdir fs1 (rev.reverse ++ [x]) m with ⟨fsm, em⟩
            rw [hmk] at h
            cases em with
            | none =>
                simp at h
                obtain rfl := h
                obtain ⟨hdm, hlm, hup⟩ :=
                  osMkdir_ok fs1 fsm (rev.reverse ++ [x]) m hmk
                have hne : rev.reverse ++ [x] ≠ ([] : Path) := by simp
                refine Exists_of_lookup fsm (rev.reverse ++ [x])
                  (Entry.dir (m % 4096)) rfl ?_ ?_
                · rw [hup, lookup_update fs1 _ _ _ hne]
                  simp
                · rw [hup, denied_update]
                  exact hdm
            | some k2 =>
                simp only [] at h
                rcases hls : osLstat fsm (rev.reverse ++ [x]) with k3 | e3
                · rw [hls] at h; simp at h
                · rw [hls] at h
                  by_cases hd3 : e3.isDir
                  · simp [hd3] at h
                    obtain rfl := h
                    obtain ⟨hdm, hlm⟩ :=
                      osLstat_ok fsm (rev.reverse ++ [x]) e3 hls
                    cases e3 with
                    | file c m2 => simp [Entry.isDir] at hd3
                    | dir m2 =>
                        exact Exists_of_lookup fsm (rev.reverse ++ [x])
                          (Entry.dir m2) rfl hlm hdm
                    | symlink t => simp [Entry.isDir] at hd3
                  · simp [hd3] at h
      · rw [hs] at h
        by_cases hd : e0.isDir
        · simp [hd] at h
          obtain rfl := h
          simp [Exists, hs, Except.isOk, Except.toBool]
        · simp [hd] at h

theorem mkdirAll_exists (fs fs2 : FS) (p : Path) (m : Nat)
    (h : mkdirAll fs p m = (fs2, none)) : Exists fs2 p = true := by
  have hrev := mkdirAllRev_exists m p.reverse fs fs2 h
  rw [List.reverse_reverse] at hrev
  exact hrev

theorem mkdirAllRev_new (m : Nat) :
    ∀ rev fs fs2, mkdirAllRev m rev fs = (fs2, none) →
      ∀ q e, lookupEntry fs q = none → lookupEntry fs2 q = some e →
        e = Entry.dir (m % 4096) := by
  intro rev
  induction rev with
  | nil =>
      intro fs fs2 h q e hq he
      rw [mkdirAllRev] at h
      rcases hs : osStat fs [] with k | e0
      · rw [hs] at h; simp at h
      · rw [hs] at h
        by_cases hd : e0.isDir
        · simp [hd] at h
          obtain rfl := h
          rw [hq] at he
          cases he
        · simp [hd] at h
  | cons x rev ih =>
      intro fs fs2 h q e hq he
      rw [mkdirAllRev] at h
      simp only [List.reverse_cons] at h
      rcases hs : osStat fs (rev.reverse ++ [x]) with k | e0
      · rw [hs] at h
        simp only [] at h
        rcases hrec : mkdirAllRev m rev fs with ⟨fs1, e1⟩
        rw [hrec] at h
        cases e1 with
        | some k1 => simp at h
        | none =>
            simp only [] at h
            rcases hmk : osMkdir fs1 (rev.reverse ++ [x]) m with ⟨fsm, em⟩
            rw [hmk] at h
            have hq1 : lookupEntry fs1 q = none ∨
                lookupEntry fs1 q = some (Entry.dir (m % 4096)) := by
              rcases hl1 : lookupEntry fs1 q with _ | e1b
              · exact Or.inl rfl
              · exact Or.inr (by rw [ih fs fs1 hrec q e1b hq hl1])
            cases em with
            | none =>
                simp at h
                obtain rfl := h
                obtain ⟨hdm, hlm, hup⟩ :=
                  osMkdir_ok fs1 fsm (rev.reverse ++ [x]) m hmk
                have hne : rev.reverse ++ [x] ≠ ([] : Path) := by simp
                rw [hup, lookup_update fs1 _ _ _ hne] at he
                by_cases hqp : q = rev.reverse ++ [x]
                · rw [if_pos hqp] at he
                  cases he
                  rfl
                · rw [if_neg hqp] at he
                  cases hq1 with
                  | inl h1 => rw [h1] at he; cases he
                  | inr h1 => rw [h1] at he; cases he; rfl
            | some k2 =>
                simp only [] at h
                rcases hls : osLstat fsm (rev.reverse ++ [x]) with k3 | e3
                · rw [hls] at h; simp at h
                · rw [hls] at h
                  by_cases hd3 : e3.isDir
                  · simp [hd3] at h
                    obtain rfl := h
                    have hfs1 : fsm = fs1 :=
                      osMkdir_err fs1 fsm (rev.reverse ++ [x]) m k2 hmk
                    rw [hfs1] at he
                    cases hq1 with
                    | inl h1 => rw [h1] at he; cases he
                    | inr h1 => rw [h1] at he; cases he; rfl
                  · simp [hd3] at h
      · rw [hs] at h
        by_cases hd : e0.isDir
        · simp [hd] at h
          obtain rfl := h
          rw [hq] at he
          cases he
        · simp [hd] at h

theorem mkdirAll_new (fs fs2 : FS) (p : Path) (m : Nat)
    (h : mkdirAll fs p m = (fs2, none)) :
    ∀ q e, lookupEntry fs q = none → lookupEntry fs2 q = some e →
      e = Entry.dir (m % 4096) :=
  mkdirAllRev_new m p.reverse fs fs2 h

theorem Exists_of_stat_ok (fs : FS) (p : Path) (e : Entry)
    (h : osStat fs p = Except.ok e) : Exists fs p = true := by
  simp [Exists, h, Except.isOk, Except.toBool]

theorem osCreate_ok (fs : FS) (p : Path) (fs2 : FS) (q : Path)
    (h : osCreate fs p = Except.ok (fs2, q)) :
    ∃ m0, resolveForWrite fs linkFuel p = Except.ok q ∧ q ≠ [] ∧
      (∀ t, lookupEntry fs q ≠ some (Entry.symlink t)) ∧
      fs2 = updateEntry fs q (Entry.file [] m0) := by
  unfold osCreate at h
  rcases hr : resolveForWrite fs linkFuel p with k | q0
  · rw [hr] at h; simp at h
  · rw [hr] at h
    simp only [] at h
    rcases hl : lookupEntry fs q0 with _ | e0
    · rw [hl] at h
      simp only [] at h
      rcases hp : resolvePath fs linkFuel q0.dropLast with k2 | qe
      · rw [hp] at h; simp at h
      · rw [hp] at h
        obtain ⟨q1, e1⟩ := qe
        cases e1 with
        | file c m2 => simp at h
        | dir m2 =>
            simp at h
            obtain ⟨rfl, rfl⟩ := h
            have hq : q0 ≠ [] := by
              intro hq2
              rw [hq2, lookupEntry_nil] at hl
              cases hl
            refine ⟨438, rfl, hq, ?_, rfl⟩
            intro t ht
            rw [hl] at ht
            cases ht
        | symlink t => simp at h
    · rw [hl] at h
      cases e0 with
      | file c m2 =>
          simp at h
          obtain ⟨rfl, rfl⟩ := h
          have hq : q0 ≠ [] := by
            intro hq2
            rw [hq2, lookupEntry_nil] at hl
            cases hl
          refine ⟨m2, rfl, hq, ?_, rfl⟩
          intro t ht
          rw [hl] at ht
          cases ht
      | dir m2 => simp at h
      | symlink t => simp at h

theorem osWriteFile_ok (fs : FS) (p : Path) (data : List Char) (m : Nat)
    (fs2 : FS) (h : osWriteFile fs p data m = (fs2, none)) :
    ∃ q m0, q ≠ [] ∧ resolveForWrite fs linkFuel p = Except.ok q ∧
      (∀ t, lookupEntry fs q ≠ some (Entry.symlink t)) ∧
      fs2 = updateEntry fs q (Entry.file data m0) := by
  unfold osWriteFile at h
  rcases hr : resolveForWrite fs linkFuel p with k | q0
  · rw [hr] at h; simp at h
  · rw [hr] at h
    simp only [] at h
    rcases hl : lookupEntry fs q0 with _ | e0
    · rw [hl] at h
      simp only [] at h
      rcases hp : resolvePath fs linkFuel q0.dropLast with k2 | qe
      · rw [hp] at h; simp at h
      · rw [hp] at h
        obtain ⟨q1, e1⟩ := qe
        cases e1 with
        | file c m2 => simp at h
        | dir m2 =>
            simp at h
            obtain rfl := h
            have hq : q0 ≠ [] := by
              intro hq
              rw [hq, lookupEntry_nil] at hl
              cases hl
            refine ⟨q0, m % 4096, hq, rfl, ?_, rfl⟩
            intro t ht
            rw [hl] at ht
            cases ht
        | symlink t => simp at h
    · rw [hl] at h
      cases e0 with
      | file c m2 =>
          simp at h
          obtain rfl := h
          have hq : q0 ≠ [] := by
            intro hq
            rw [hq, lookupEntry_nil] at hl
            cases hl
          refine ⟨q0, m2, hq, rfl, ?_, rfl⟩
          intro t ht
          rw [hl] at ht
          cases ht
      | dir m2 => simp at h
      | symlink t => simp at h

theorem readFile_after_write (fs : FS) (p : Path) (data : List Char)
    (m : Nat) (fs2 : FS) (h : osWriteFile fs p data m = (fs2, none)) :
    osReadFile fs2 p = Except.ok data := by
  obtain ⟨q, m0, hq, hr, hnq, rfl⟩ := osWriteFile_ok fs p data m fs2 h
  have hres := resolveForWrite_update fs (Entry.file data m0) rfl linkFuel
    p q hr hq
  unfold osReadFile
  rw [hres]

/-
Lemmas about filepath.Clean preserving relative paths.
-/

theorem splitSlashL_no_slash :
    ∀ l : List Char, ∀ s ∈ splitSlashL l, '/' ∉ s := by
  intro l
  induction l with
  | nil =>
      intro s hs
      rw [splitSlashL] at hs
      simp at hs
      subst hs
      simp
  | cons c cs ih =>
      intro s hs
      rw [splitSlashL] at hs
      by_cases hc : c = '/'
      · simp only [hc, ite_true, if_pos] at hs
        rcases List.mem_cons.mp hs with h1 | h1
        · subst h1; simp
        · exact ih s h1
      · simp only [hc, ite_false, if_neg] at hs
        rcases hsp : splitSlashL cs with _ | ⟨t, ts⟩
        · rw [hsp] at hs
          simp at hs
          subst hs
          intro hmem
          simp at hmem
          exact hc hmem.symm
        · rw [hsp] at hs
          rcases List.mem_cons.mp hs with h1 | h1
          · subst h1
            intro hmem
            rcases List.mem_cons.mp hmem with h2 | h2
            · exact hc h2.symm
            · exact ih t (by rw [hsp]; simp) h2
          · exact ih s (by rw [hsp]; simp [h1])

theorem cleanParts_inv :
    ∀ es : List (List Char), ∀ rooted acc,
      (∀ s ∈ es, '/' ∉ s) → (∀ s ∈ acc, s ≠ [] ∧ '/' ∉ s) →
      ∀ s ∈ cleanParts es rooted acc, s ≠ [] ∧ '/' ∉ s := by
  intro es
  induction es with
  | nil =>
      intro rooted acc hes hacc s hs
      simp only [cleanParts] at hs
      simp at hs
      exact hacc s hs
  | cons e es ih =>
      intro rooted acc hes hacc s hs
      have hes2 : ∀ s2 ∈ es, '/' ∉ s2 := fun s2 h2 => hes s2 (by simp [h2])
      simp only [cleanParts] at hs
      by_cases h1 : e = [] ∨ e = ['.']
      · rw [if_pos h1] at hs
        exact ih rooted acc hes2 hacc s hs
      · rw [if_neg h1] at hs
        by_cases h2 : e = ['.', '.']
        · rw [if_pos h2] at hs
          rcases hacc2 : acc with _ | ⟨top, accRest⟩
          · rw [hacc2] at hs
            simp only [] at hs
            by_cases hroot : rooted = true
            · rw [if_pos hroot] at hs
              exact ih rooted [] hes2 (by simp) s hs
            · rw [if_neg hroot] at hs
              refine ih rooted [['.', '.']] hes2 ?_ s hs
              intro s2 hs2
              simp at hs2
              subst hs2
              simp
          · rw [hacc2] at hs
            simp only [] at hs
            by_cases htop : top = ['.', '.']
            · rw [if_pos htop] at hs
              refine ih rooted (e :: top :: accRest) hes2 ?_ s hs
              intro s2 hs2
              rcases List.mem_cons.mp hs2 with h3 | h3
              · subst h3; rw [h2]; simp
              · exact hacc s2 (by rw [hacc2]; simp [h3])
            · rw [if_neg htop] at hs
              refine ih rooted accRest hes2 ?_ s hs
              intro s2 hs2
              exact hacc s2 (by rw [hacc2]; simp [hs2])
        · rw [if_neg h2] at hs
          refine ih rooted (e :: acc) hes2 ?_ s hs
          intro s2 hs2
          rcases List.mem_cons.mp hs2 with h3 | h3
          · subst h3
            constructor
            · intro he
              exact h1 (Or.inl he)
            · exact hes s2 (by simp)
          · exact hacc s2 h3

theorem isAbsL_append (x r : List Char) (hx : x ≠ []) (hs : '/' ∉ x) :
    isAbsL (x ++ r) = false := by
  cases x with
  | nil => exact absurd rfl hx
  | cons c cs =>
      have hc : c ≠ '/' := fun hc => hs (by rw [hc]; simp)
      simp [isAbsL, hc]

theorem interSlash_nonabs (parts : List (List Char))
    (hinv : ∀ s ∈ parts, s ≠ [] ∧ '/' ∉ s) :
    isAbsL (interSlash parts) = false := by
  cases parts with
  | nil => simp [interSlash, isAbsL]
  | cons x xs =>
      have hx := hinv x (by simp)
      cases xs with
      | nil =>
          rw [interSlash]
          have h2 := isAbsL_append x [] hx.1 hx.2
          rw [List.append_nil] at h2
          exact h2
      | cons y ys =>
          show isAbsL (x ++ '/' :: interSlash (y :: ys)) = false
          exact isAbsL_append x ('/' :: interSlash (y :: ys)) hx.1 hx.2

theorem cleanL_nonabs (s : List Char) (h : isAbsL s = false) :
    isAbsL (cleanL s) = false := by
  unfold cleanL
  by_cases hs : s = []
  · simp [hs, isAbsL]
  · simp only [hs, ite_false, if_neg, h]
    by_cases hp : cleanParts (splitSlashL s) false [] = []
    · simp [hp, isAbsL]
    · simp only [hp, ite_false, if_neg]
      refine interSlash_nonabs (cleanParts (splitSlashL s) false [])
        (cleanParts_inv (splitSlashL s) false []
          (splitSlashL_no_slash s) (by simp))

/-
Claim theorems.
-/

/-- Claim C1: for every filesystem state and path, Exists is true exactly
when the stat query does not fail with a not-found error; in particular a
permission-denied stat makes Exists true and only a not-found stat makes
it false. -/
theorem claim1_exists_iff (fs : FS) (p : Path) :
    (Exists fs p = true ↔ osStat fs p ≠ Except.error ErrKind.notFound) ∧
    (osStat fs p = Except.error ErrKind.permission → Exists fs p = true) ∧
    (osStat fs p = Except.error ErrKind.notFound → Exists fs p = false) := by
  refine ⟨⟨?_, ?_⟩, ?_, ?_⟩
  · intro h hn
    unfold Exists at h
    rw [hn] at h
    simp [Except.isOk, Except.toBool, isNotExistRes] at h
  · intro hn
    unfold Exists
    rcases hs : osStat fs p with k | e
    · cases k <;> simp_all [isNotExistRes, Except.isOk, Except.toBool]
    · simp [Except.isOk, Except.toBool]
  · intro h
    unfold Exists
    rw [h]
    simp [Except.isOk, Except.toBool, isNotExistRes]
  · intro h
    unfold Exists
    rw [h]
    simp [Except.isOk, Except.toBool, isNotExistRes]

/-- Witness filesystem for claim C1: one readable file and one
permission-denied path. -/
def fsC1 : FS := FS.mk [(["f"], Entry.file [] 420)] [["p"]]

/-- Witness for claim C1: on a concrete state, a permission-denied path
makes Exists true and a missing path makes it false. -/
theorem claim1_witness :
    Exists fsC1 ["p"] = true ∧ Exists fsC1 ["zz"] = false :=
  ⟨(claim1_exists_iff fsC1 ["p"]).2.1 (by rfl),
   (claim1_exists_iff fsC1 ["zz"]).2.2 (by rfl)⟩

/-- Claim C4: Resolve inspects the first byte of the path, and the second
byte when the first is a tilde or a dot, without any length check, so the
inputs tilde, dot and the empty string hit an out-of-range index for
every environment and base. -/
theorem claim4_resolve_oob (env : OsEnv) (base : List Char) :
    Resolve env ['~'] base = RResult.panicOOB ∧
    Resolve env ['.'] base = RResult.panicOOB ∧
    Resolve env [] base = RResult.panicOOB := by
  refine ⟨rfl, rfl, rfl⟩

theorem joinLinesSep_foldl (sep : List Char) (lines : List (List Char)) :
    ∀ acc, lines.foldl (fun acc l => acc ++ l ++ sep) acc =
      acc ++ (lines.map (fun l => l ++ sep)).flatten := by
  induction lines with
  | nil => intro acc; simp
  | cons l ls ih =>
      intro acc
      simp only [List.foldl_cons, List.map_cons, List.flatten]
      rw [ih]
      simp [List.append_assoc]

/-- Claim C6: WriteFileLinesSep writes exactly the concatenation of the
lines with the separator appended after every line (empty input writes
empty content), as a single whole-file write through WriteTextFile. -/
theorem claim6_writeFileLinesSep (fs : FS) (p : Path)
    (lines : List (List Char)) (sep : List Char) (m : Nat) :
    WriteFileLinesSep fs p lines sep m =
      WriteTextFile fs p (joinLinesSep lines sep) m ∧
    joinLinesSep lines sep = (lines.map (fun l => l ++ sep)).flatten ∧
    joinLinesSep [] sep = [] := by
  refine ⟨rfl, ?_, rfl⟩
  unfold joinLinesSep
  rw [joinLinesSep_foldl]
  simp

/-- Claim C7: EnsureDir is a no-op returning success whenever Exists is
true, even when the entry is a file; only when Exists is false does it
run MkdirAll, which on success makes the path exist and has created only
directory entries carrying the given permission bits. -/
theorem claim7_ensureDir (fs : FS) (p : Path) (m : Nat) :
    (Exists fs p = true → EnsureDir fs p m = (fs, none)) ∧
    (Exists fs p = false →
      EnsureDir fs p m = mkdirAll fs p m ∧
      ∀ fs2, mkdirAll fs p m = (fs2, none) →
        Exists fs2 p = true ∧
        ∀ q e, lookupEntry fs q = none → lookupEntry fs2 q = some e →
          e = Entry.dir (m % 4096)) := by
  constructor
  · intro h
    simp [EnsureDir, h]
  · intro h
    refine ⟨by simp [EnsureDir, h], ?_⟩
    intro fs2 h2
    exact ⟨mkdirAll_exists fs fs2 p m h2, mkdirAll_new fs fs2 p m h2⟩

/-- Witness for claim C7: on a concrete state, EnsureDir over an existing
regular file is a no-op, and over a missing nested path it creates the
directories with the requested permission bits. -/
theorem claim7_witness :
    EnsureDir fsC1 ["f"] 493 = (fsC1, none) ∧
    Exists (mkdirAll fsC1 ["a", "b"] 493).1 ["a", "b"] = true :=
  ⟨(claim7_ensureDir fsC1 ["f"] 493).1 (by decide),
   (((claim7_ensureDir fsC1 ["a", "b"] 493).2 (by decide)).2
     (mkdirAll fsC1 ["a", "b"] 493).1 (by decide)).1⟩

/-- Claim C8: EnsureDir and EnsureFile are idempotent: after a successful
first call, a second call with the same arguments succeeds and leaves the
whole filesystem state unchanged. -/
theorem claim8_idempotent (fs : FS) (p : Path) (m : Nat) :
    (∀ fs2, EnsureDir fs p m = (fs2, none) →
      EnsureDir fs2 p m = (fs2, none)) ∧
    (∀ fs2, EnsureFile fs p m = (fs2, none) →
      EnsureFile fs2 p m = (fs2, none)) := by
  constructor
  · intro fs2 h
    unfold EnsureDir at h
    by_cases hE : Exists fs p
    · rw [if_pos hE] at h
      simp at h
      obtain rfl := h
      simp [EnsureDir, hE]
    · rw [if_neg hE] at h
      have hex := mkdirAll_exists fs fs2 p m h
      simp [EnsureDir, hex]
  · intro fs2 h
    unfold EnsureFile at h
    by_cases hE : Exists fs p
    · rw [if_pos hE] at h
      simp at h
      obtain rfl := h
      simp [EnsureFile, hE]
    · rw [if_neg hE] at h
      rcases hcr : osCreate fs p with k | fq
      · rw [hcr] at h
        simp at h
      · rw [hcr] at h
        obtain ⟨fs1, q⟩ := fq
        simp only [] at h
        obtain ⟨m0, hrw, hq, hnsym, rfl⟩ := osCreate_ok fs p fs1 q hcr
        have hres := resolveForWrite_update fs (Entry.file [] m0) rfl
          linkFuel p q hrw hq
        unfold osChmod at h
        rw [hres] at h
        simp only [] at h
        simp at h
        obtain rfl := h
        rw [update_update]
        have hres2 := resolveForWrite_update fs
          (Entry.file [] (m % 4096)) rfl linkFuel p q hrw hq
        have hE2 :
            Exists (updateEntry fs q (Entry.file [] (m % 4096))) p = true := by
          unfold Exists osStat
          rw [hres2]
          simp [Except.isOk, Except.toBool]
        simp [EnsureFile, hE2]

/-- Witness for claim C8: a successful EnsureDir and EnsureFile on a
concrete empty state, repeated, return success with no state change. -/
theorem claim8_witness :
    EnsureDir (EnsureDir (FS.mk [] []) ["a"] 493).1 ["a"] 493 =
      ((EnsureDir (FS.mk [] []) ["a"] 493).1, none) ∧
    EnsureFile (EnsureFile (FS.mk [] []) ["g"] 420).1 ["g"] 420 =
      ((EnsureFile (FS.mk [] []) ["g"] 420).1, none) :=
  ⟨(claim8_idempotent (FS.mk [] []) ["a"] 493).1
     (EnsureDir (FS.mk [] []) ["a"] 493).1 (by decide),
   (claim8_idempotent (FS.mk [] []) ["g"] 420).2
     (EnsureFile (FS.mk [] []) ["g"] 420).1 (by decide)⟩

/-- Destination-exists filesystem for the counterexample to claim C2. -/
def fsC2 : FS := FS.mk [(["d"], Entry.file ['y'] 420)] []

/-- Counterexample to claim C2 as stated: the destination exists and
overwrite is false, yet CopyFile returns the source's stat error (the
source is statted before the destination check), not success. -/
theorem claim2_counterexample :
    Exists fsC2 ["d"] = true ∧
    CopyFile fsC2 ["s"] ["d"] false = (fsC2, some ErrKind.notFound) := by
  exact ⟨by decide, rfl⟩

/-- Claim C2 amended: when the stat on the source succeeds, an existing
destination with overwrite false makes CopyFile a successful no-op; and
any successful CopyFile with overwrite true leaves the destination's
content equal to the source's content. -/
theorem claim2_amended (fs : FS) (src dst : Path) :
    ((osStat fs src).isOk = true → Exists fs dst = true →
      CopyFile fs src dst false = (fs, none)) ∧
    (∀ fs2, CopyFile fs src dst true = (fs2, none) →
      contentAt fs2 dst = contentAt fs2 src) := by
  constructor
  · intro hok hdst
    unfold CopyFile
    rcases hstat : osStat fs src with k | info
    · rw [hstat] at hok
      simp [Except.isOk, Except.toBool] at hok
    · unfold copyFile
      rw [hdst]
      simp
  · intro fs2 h
    unfold CopyFile at h
    rcases hstat : osStat fs src with k | info
    · rw [hstat] at h
      simp at h
    · rw [hstat] at h
      unfold copyFile at h
      simp only [] at h
      rw [show (Exists fs dst && !true) = false by simp] at h
      rw [if_neg (by simp)] at h
      rcases hres : resolvePath fs linkFuel src with k | qe
      · rw [hres] at h
        simp at h
      · rw [hres] at h
        simp only [] at h
        obtain ⟨qsrc, esrc⟩ := qe
        rcases hcr : osCreate fs dst with k | fq
        · rw [hcr] at h
          simp at h
        · rw [hcr] at h
          obtain ⟨fs2c, qdst⟩ := fq
          simp only [] at h
          obtain ⟨m0, hrw, hqne, hnsym, rfl⟩ :=
            osCreate_ok fs dst fs2c qdst hcr
          rcases hlk :
              lookupEntry (updateEntry fs qdst (Entry.file [] m0)) qsrc
            with _ | esrc2
          · rw [hlk] at h
            simp at h
          · rw [hlk] at h
            cases esrc2 with
            | file data mr =>
                simp only [] at h
                have hlkd :
                    lookupEntry (updateEntry fs qdst (Entry.file [] m0))
                      qdst = some (Entry.file [] m0) := by
                  rw [lookup_update fs _ _ _ hqne]
                  simp
                rw [hlkd] at h
                simp only [] at h
                rw [update_update] at h
                have hres3 := resolveForWrite_update fs
                  (Entry.file data m0) rfl linkFuel dst qdst hrw hqne
                unfold osChmod at h
                rw [hres3] at h
                simp only [] at h
                rw [update_update] at h
                simp at h
                obtain rfl := h
                have hresD := resolveForWrite_update fs
                  (Entry.file data (Entry.permBits info % 4096)) rfl
                  linkFuel dst qdst hrw hqne
                have hcd :
                    contentAt (updateEntry fs qdst
                      (Entry.file data (Entry.permBits info % 4096))) dst =
                      some data := by
                  unfold contentAt osReadFile
                  rw [hresD]
                have hresS := resolvePath_update fs qdst
                  (Entry.file data (Entry.permBits info % 4096)) rfl hqne
                  hnsym linkFuel src qsrc esrc hres
                have hcs :
                    contentAt (updateEntry fs qdst
                      (Entry.file data (Entry.permBits info % 4096))) src =
                      some data := by
                  unfold contentAt osReadFile
                  rw [hresS]
                  by_cases hqq : qsrc = qdst
                  · rw [if_pos hqq]
                  · rw [if_neg hqq]
                    have hspec := resolvePath_spec fs linkFuel src qsrc esrc hres
                    rw [lookup_update fs _ _ _ hqne, if_neg hqq] at hlk
                    rw [hspec.1] at hlk
                    have hesrc := Option.some.inj hlk
                    rw [hesrc]
                rw [hcd, hcs]
            | dir mr =>
                simp at h
            | symlink t =>
                simp at h

/-- Witness filesystem for claim C2: a readable source file and an
existing destination file. -/
def fsC2w : FS :=
  FS.mk [(["s"], Entry.file ['h', 'i'] 493), (["d"], Entry.file ['y'] 420)] []

/-- Witness for claim C2 amended: on a concrete state, the no-op branch
and the content equation after a successful overwriting copy. -/
theorem claim2_witness :
    CopyFile fsC2w ["s"] ["d"] false = (fsC2w, none) ∧
    contentAt (CopyFile fsC2w ["s"] ["d"] true).1 ["d"] =
      contentAt (CopyFile fsC2w ["s"] ["d"] true).1 ["s"] :=
  ⟨(claim2_amended fsC2w ["s"] ["d"]).1 (by rfl) (by decide),
   (claim2_amended fsC2w ["s"] ["d"]).2
     (CopyFile fsC2w ["s"] ["d"] true).1 (by decide)⟩

/-- Counterexample to claim C5 as stated: a line containing an embedded
newline does not round-trip; the write succeeds but the read returns the
line split at the newline. -/
theorem claim5_counterexample :
    (WriteFileLines (FS.mk [] []) ["f"] [['a', '\n', 'b'], ['c']] 420).2 =
      none ∧
    ReadFileLines
      (WriteFileLines (FS.mk [] []) ["f"] [['a', '\n', 'b'], ['c']] 420).1
      ["f"] = ([['a'], ['b'], ['c']], none) ∧
    ([['a'], ['b'], ['c']], (none : Option ErrKind)) ≠
      ([['a', '\n', 'b'], ['c']], none) := by
  refine ⟨by decide, by decide, by decide⟩

/-- Claim C5 amended: for lines free of embedded newlines, not ending in
a carriage return, and shorter than the scanner's maximum token size, a
successful WriteFileLines of two lines followed by ReadFileLines returns
exactly those two lines in order with no trailing empty line. -/
theorem claim5_amended (fs : FS) (p : Path) (m : Nat) (l1 l2 : List Char)
    (h1 : '\n' ∉ l1) (h2 : '\n' ∉ l2)
    (hr1 : l1.getLast? ≠ some '\r') (hr2 : l2.getLast? ≠ some '\r')
    (hlen1 : l1.length < maxScanTokenSize)
    (hlen2 : l2.length < maxScanTokenSize) :
    ∀ fs2, WriteFileLines fs p [l1, l2] m = (fs2, none) →
      ReadFileLines fs2 p = ([l1, l2], none) := by
  intro fs2 h
  have hjoin : joinLinesSep [l1, l2] EOL = l1 ++ '\n' :: (l2 ++ '\n' :: []) := by
    simp [joinLinesSep, EOL]
  unfold WriteFileLines WriteFileLinesSep WriteTextFile at h
  rw [hjoin] at h
  have hread := readFile_after_write fs p _ m fs2 h
  unfold ReadFileLines
  rw [hread]
  simp only []
  unfold scanLines
  rw [splitNL_append l1 _ (fun c hc hc2 => h1 (hc2 ▸ hc))]
  rw [splitNL_append l2 [] (fun c hc hc2 => h2 (hc2 ▸ hc))]
  have hn1 : ¬ ((65536 : Nat) ≤ l1.length) := Nat.not_le_of_lt hlen1
  have hn2 : ¬ ((65536 : Nat) ≤ l2.length) := Nat.not_le_of_lt hlen2
  simp [splitNL, processSegments, hn1, hn2, dropCR_eq l1 hr1,
    dropCR_eq l2 hr2, maxScanTokenSize]

/-- Witness for claim C5 amended: a concrete two-line round trip. -/
theorem claim5_witness :
    ReadFileLines
      (WriteFileLines (FS.mk [] []) ["f"] [['a'], ['b']] 420).1 ["f"] =
      ([['a'], ['b']], none) :=
  claim5_amended (FS.mk [] []) ["f"] 420 ['a'] ['b'] (by decide) (by decide)
    (by decide) (by decide) (by decide) (by decide)
    (WriteFileLines (FS.mk [] []) ["f"] [['a'], ['b']] 420).1 (by decide)

/-- An oversized line for claim C10, longer than the scanner's maximum
token size. -/
def longLine : List Char := List.replicate 70000 'a'

/-- File content for claim C10: a short line, then the oversized line,
then one more line. -/
def fsC10 : FS :=
  FS.mk [(["f"],
    Entry.file (['o', 'k'] ++ '\n' :: (longLine ++ '\n' :: ['r', '\n']))
      420)] []

/-- Claim C10: ReadFileLines on a fully readable file whose second line
exceeds the scanner's maximum token size returns the lines scanned before
the oversized one together with a non-nil (too-long) error, not the full
line sequence. -/
theorem claim10_scanner_too_long :
    ReadFileLines fsC10 ["f"] = ([['o', 'k']], some ErrKind.tooLong) := by
  have hread : osReadFile fsC10 ["f"] =
      Except.ok (['o', 'k'] ++ '\n' :: (longLine ++ '\n' :: ['r', '\n'])) :=
    rfl
  unfold ReadFileLines
  rw [hread]
  simp only []
  unfold scanLines
  rw [splitNL_append ['o', 'k'] _ (by decide)]
  rw [splitNL_append longLine _ (fun c hc => by
    rw [List.eq_of_mem_replicate hc]
    decide)]
  have hlen70 : longLine.length = 70000 := by
    rw [longLine]
    exact List.length_replicate 70000 'a'
  have hlong : maxScanTokenSize ≤ longLine.length := by
    rw [hlen70]
    decide
  have hsplit : splitNL ['r', '\n'] = [['r'], []] := rfl
  rw [hsplit]
  rw [processSegments]
  case x_1 => simp
  rw [if_neg (by decide)]
  rw [processSegments]
  case x_1 => simp
  rw [if_pos hlong]
  rfl

/-
Lemmas showing that no operation reached from CopyDir ever writes a
symbolic-link entry: every state change is an update with a file or
directory entry, so any symbolic link present afterwards was already
present before.
-/

theorem lookup_update_r (fs : FS) (q : Path) (e : Entry) (r : Path)
    (hr : r ≠ []) :
    lookupEntry (updateEntry fs q e) r =
      if r = q then some e else lookupEntry fs r := by
  unfold lookupEntry updateEntry
  simp only [hr, ite_false, if_neg]
  rw [assocFind_assocSet]

theorem symPres_update (fs : FS) (q : Path) (e : Entry)
    (he : e.isLink = false) :
    ∀ r u, lookupEntry (updateEntry fs q e) r = some (Entry.symlink u) →
      lookupEntry fs r = some (Entry.symlink u) := by
  intro r u h
  by_cases hr : r = []
  · subst hr
    rw [lookupEntry_nil] at h
    simp at h
  · rw [lookup_update_r fs q e r hr] at h
    by_cases hq : r = q
    · rw [if_pos hq] at h
      obtain rfl := Option.some.inj h
      simp [Entry.isLink] at he
    · rw [if_neg hq] at h
      exact h

theorem osMkdir_symPres (fs : FS) (p : Path) (m : Nat) :
    ∀ r u, lookupEntry (osMkdir fs p m).1 r = some (Entry.symlink u) →
      lookupEntry fs r = some (Entry.symlink u) := by
  intro r u h
  unfold osMkdir at h
  by_cases hd : p ∈ fs.denied
  · rw [if_pos hd] at h
    exact h
  · rw [if_neg hd] at h
    rcases hl : lookupEntry fs p with _ | e0
    · rw [hl] at h
      rcases hp : resolvePath fs linkFuel p.dropLast with k | qe
      · rw [hp] at h
        exact h
      · rw [hp] at h
        obtain ⟨q0, e1⟩ := qe
        cases e1 with
        | file c m2 => exact h
        | dir m2 => exact symPres_update fs p (Entry.dir (m % 4096)) rfl r u h
        | symlink t2 => exact h
    · rw [hl] at h
      exact h

theorem osChmod_symPres (fs : FS) (p : Path) (m : Nat) :
    ∀ r u, lookupEntry (osChmod fs p m).1 r = some (Entry.symlink u) →
      lookupEntry fs r = some (Entry.symlink u) := by
  intro r u h
  unfold osChmod at h
  rcases hp : resolvePath fs linkFuel p with k | qe
  · rw [hp] at h
    exact h
  · rw [hp] at h
    obtain ⟨q, e1⟩ := qe
    cases e1 with
    | file c mp =>
        exact symPres_update fs q (Entry.file c (m % 4096)) rfl r u h
    | dir mp =>
        exact symPres_update fs q (Entry.dir (m % 4096)) rfl r u h
    | symlink t2 => exact h

theorem mkdirAllRev_symPres (m : Nat) :
    ∀ rev fs r u,
      lookupEntry (mkdirAllRev m rev fs).1 r = some (Entry.symlink u) →
      lookupEntry fs r = some (Entry.symlink u) := by
  intro rev
  induction rev with
  | nil =>
      intro fs r u h
      rw [mkdirAllRev] at h
      rcases hs : osStat fs [] with k | e0
      · rw [hs] at h
        exact h
      · rw [hs] at h
        simp only [] at h
        by_cases hd : e0.isDir
        · rw [if_pos hd] at h
          exact h
        · rw [if_neg hd] at h
          exact h
  | cons x rev ih =>
      intro fs r u h
      rw [mkdirAllRev] at h
      simp only [List.reverse_cons] at h
      rcases hs : osStat fs (rev.reverse ++ [x]) with k | e0
      · rw [hs] at h
        simp only [] at h
        rcases hrec : mkdirAllRev m rev fs with ⟨fs1, e1⟩
        rw [hrec] at h
        have hPres1 : ∀ r2 u2,
            lookupEntry fs1 r2 = some (Entry.symlink u2) →
            lookupEntry fs r2 = some (Entry.symlink u2) := by
          intro r2 u2 hh
          refine ih fs r2 u2 ?_
          rw [hrec]
          exact hh
        cases e1 with
        | some k1 => exact hPres1 r u h
        | none =>
            simp only [] at h
            rcases hmk : osMkdir fs1 (rev.reverse ++ [x]) m with ⟨fsm, em⟩
            rw [hmk] at h
            have hPres2 : ∀ r2 u2,
                lookupEntry fsm r2 = some (Entry.symlink u2) →
                lookupEntry fs1 r2 = some (Entry.symlink u2) := by
              intro r2 u2 hh
              refine osMkdir_symPres fs1 (rev.reverse ++ [x]) m r2 u2 ?_
              rw [hmk]
              exact hh
            cases em with
            | none => exact hPres1 r u (hPres2 r u h)
            | some k2 =>
                simp only [] at h
                rcases hls : osLstat fsm (rev.reverse ++ [x]) with k3 | e3
                · rw [hls] at h
                  exact hPres1 r u (hPres2 r u h)
                · rw [hls] at h
                  simp only [] at h
                  by_cases hd3 : e3.isDir
                  · rw [if_pos hd3] at h
                    exact hPres1 r u (hPres2 r u h)
                  · rw [if_neg hd3] at h
                    exact hPres1 r u (hPres2 r u h)
      · rw [hs] at h
        simp only [] at h
        by_cases hd : e0.isDir
        · rw [if_pos hd] at h
          exact h
        · rw [if_neg hd] at h
          exact h

theorem mkdirAll_symPres (fs : FS) (p : Path) (m : Nat) :
    ∀ r u, lookupEntry (mkdirAll fs p m).1 r = some (Entry.symlink u) →
      lookupEntry fs r = some (Entry.symlink u) :=
  fun r u h => mkdirAllRev_symPres m p.reverse fs r u h

theorem ensureDir_symPres (fs : FS) (p : Path) (m : Nat) :
    ∀ r u, lookupEntry (EnsureDir fs p m).1 r = some (Entry.symlink u) →
      lookupEntry fs r = some (Entry.symlink u) := by
  intro r u h
  unfold EnsureDir at h
  by_cases hE : Exists fs p
  · rw [if_pos hE] at h
    exact h
  · rw [if_neg hE] at h
    exact mkdirAll_symPres fs p m r u h

theorem copyFile_symPres (fs : FS) (src dst : Path) (info : Entry)
    (ovr : Bool) :
    ∀ r u,
      lookupEntry (copyFile fs src dst info ovr).1 r =
        some (Entry.symlink u) →
      lookupEntry fs r = some (Entry.symlink u) := by
  intro r u h
  unfold copyFile at h
  by_cases hskip : (Exists fs dst && !ovr) = true
  · rw [if_pos hskip] at h
    exact h
  · rw [if_neg hskip] at h
    rcases hres : resolvePath fs linkFuel src with k | qe
    · rw [hres] at h
      exact h
    · rw [hres] at h
      simp only [] at h
      obtain ⟨qsrc, esrc⟩ := qe
      rcases hcr : osCreate fs dst with k | fq
      · rw [hcr] at h
        exact h
      · rw [hcr] at h
        obtain ⟨fs2c, qdst⟩ := fq
        simp only [] at h
        obtain ⟨m0, hrw, hqne, hnsym, rfl⟩ := osCreate_ok fs dst fs2c qdst hcr
        have hpres1 : ∀ r2 u2,
            lookupEntry (updateEntry fs qdst (Entry.file [] m0)) r2 =
              some (Entry.symlink u2) →
            lookupEntry fs r2 = some (Entry.symlink u2) :=
          symPres_update fs qdst (Entry.file [] m0) rfl
        rcases hlk :
            lookupEntry (updateEntry fs qdst (Entry.file [] m0)) qsrc
          with _ | esrc2
        · rw [hlk] at h
          exact hpres1 r u h
        · rw [hlk] at h
          cases esrc2 with
          | file data mr =>
              simp only [] at h
              rcases hlkd :
                  lookupEntry (updateEntry fs qdst (Entry.file [] m0)) qdst
                with _ | ed
              · rw [hlkd] at h
                exact hpres1 r u h
              · rw [hlkd] at h
                cases ed with
                | file c2 mdst =>
                    simp only [] at h
                    have h2 := osChmod_symPres
                      (updateEntry (updateEntry fs qdst (Entry.file [] m0))
                        qdst (Entry.file data mdst)) dst
                      (Entry.permBits info) r u h
                    have h3 := symPres_update
                      (updateEntry fs qdst (Entry.file [] m0)) qdst
                      (Entry.file data mdst) rfl r u h2
                    exact hpres1 r u h3
                | dir m2 => exact hpres1 r u h
                | symlink t2 => exact hpres1 r u h
          | dir m2 => exact hpres1 r u h
          | symlink t2 => exact hpres1 r u h

theorem cdWalkFn_symPres (src dst : Path) (ovr : Bool) (p : Path)
    (info : Entry) (fs : FS) :
    ∀ r u,
      lookupEntry (cdWalkFn src dst ovr p info fs).1 r =
        some (Entry.symlink u) →
      lookupEntry fs r = some (Entry.symlink u) := by
  intro r u h
  unfold cdWalkFn at h
  simp only [] at h
  by_cases hd : info.isDir
  · rw [if_pos hd] at h
    exact ensureDir_symPres fs _ _ r u h
  · rw [if_neg hd] at h
    exact copyFile_symPres fs _ _ _ _ r u h

theorem walkLoop_symPres (src dst : Path) (ovr : Bool) :
    ∀ fuel work fs r u,
      lookupEntry (walkLoop src dst ovr fuel work fs).1 r =
        some (Entry.symlink u) →
      lookupEntry fs r = some (Entry.symlink u) := by
  intro fuel
  induction fuel with
  | zero =>
      intro work fs r u h
      cases work with
      | nil =>
          rw [walkLoop] at h
          exact h
      | cons p rest =>
          rw [walkLoop] at h
          exact h
  | succ n ih =>
      intro work fs r u h
      cases work with
      | nil =>
          rw [walkLoop] at h
          exact h
      | cons p rest =>
          rw [walkLoop] at h
          rcases hls : osLstat fs p with k | info
          · rw [hls] at h
            exact h
          · rw [hls] at h
            simp only [] at h
            rcases hfn : cdWalkFn src dst ovr p info fs with ⟨fs1, e1⟩
            rw [hfn] at h
            have hp1 : ∀ r2 u2,
                lookupEntry fs1 r2 = some (Entry.symlink u2) →
                lookupEntry fs r2 = some (Entry.symlink u2) := by
              intro r2 u2 hh
              refine cdWalkFn_symPres src dst ovr p info fs r2 u2 ?_
              rw [hfn]
              exact hh
            cases e1 with
            | some k1 => exact hp1 r u h
            | none =>
                simp only [] at h
                by_cases hd : info.isDir
                · rw [if_pos hd] at h
                  exact hp1 r u (ih _ fs1 r u h)
                · rw [if_neg hd] at h
                  exact hp1 r u (ih _ fs1 r u h)

theorem osCreate_ok_notdir (fs : FS) (p : Path) (fs2 : FS) (q : Path)
    (h : osCreate fs p = Except.ok (fs2, q)) :
    ∀ m2, lookupEntry fs q ≠ some (Entry.dir m2) := by
  unfold osCreate at h
  rcases hr : resolveForWrite fs linkFuel p with k | q0
  · rw [hr] at h
    simp at h
  · rw [hr] at h
    simp only [] at h
    rcases hl : lookupEntry fs q0 with _ | e0
    · rw [hl] at h
      simp only [] at h
      rcases hp : resolvePath fs linkFuel q0.dropLast with k2 | qe
      · rw [hp] at h
        simp at h
      · rw [hp] at h
        obtain ⟨q1, e1⟩ := qe
        cases e1 with
        | file c m2 => simp at h
        | dir m2 =>
            simp at h
            obtain ⟨_, rfl⟩ := h
            intro m3 hm3
            rw [hl] at hm3
            simp at hm3
        | symlink t2 => simp at h
    · rw [hl] at h
      cases e0 with
      | file c m2 =>
          simp at h
          obtain ⟨_, rfl⟩ := h
          intro m3 hm3
          rw [hl] at hm3
          simp at hm3
      | dir m2 => simp at h
      | symlink t2 => simp at h

theorem copyFile_content (fs : FS) (src dst : Path) (info : Entry)
    (fs2 : FS) (h : copyFile fs src dst info true = (fs2, none)) :
    contentAt fs2 dst = contentAt fs2 src ∧ IsFile fs2 dst = true := by
  unfold copyFile at h
  rw [show (Exists fs dst && !true) = false by simp] at h
  rw [if_neg (by simp)] at h
  rcases hres : resolvePath fs linkFuel src with k | qe
  · rw [hres] at h
    simp at h
  · rw [hres] at h
    simp only [] at h
    obtain ⟨qsrc, esrc⟩ := qe
    rcases hcr : osCreate fs dst with k | fq
    · rw [hcr] at h
      simp at h
    · rw [hcr] at h
      obtain ⟨fs2c, qdst⟩ := fq
      simp only [] at h
      obtain ⟨m0, hrw, hqne, hnsym, rfl⟩ := osCreate_ok fs dst fs2c qdst hcr
      rcases hlk :
          lookupEntry (updateEntry fs qdst (Entry.file [] m0)) qsrc
        with _ | esrc2
      · rw [hlk] at h
        simp at h
      · rw [hlk] at h
        cases esrc2 with
        | file data mr =>
            simp only [] at h
            have hlkd :
                lookupEntry (updateEntry fs qdst (Entry.file [] m0)) qdst =
                  some (Entry.file [] m0) := by
              rw [lookup_update fs _ _ _ hqne]
              simp
            rw [hlkd] at h
            simp only [] at h
            rw [update_update] at h
            have hres3 := resolveForWrite_update fs (Entry.file data m0) rfl
              linkFuel dst qdst hrw hqne
            unfold osChmod at h
            rw [hres3] at h
            simp only [] at h
            rw [update_update] at h
            simp at h
            obtain rfl := h
            have hresD := resolveForWrite_update fs
              (Entry.file data (Entry.permBits info % 4096)) rfl
              linkFuel dst qdst hrw hqne
            constructor
            · have hcd :
                  contentAt (updateEntry fs qdst
                    (Entry.file data (Entry.permBits info % 4096))) dst =
                    some data := by
                unfold contentAt osReadFile
                rw [hresD]
              have hresS := resolvePath_update fs qdst
                (Entry.file data (Entry.permBits info % 4096)) rfl hqne
                hnsym linkFuel src qsrc esrc hres
              have hcs :
                  contentAt (updateEntry fs qdst
                    (Entry.file data (Entry.permBits info % 4096))) src =
                    some data := by
                unfold contentAt osReadFile
                rw [hresS]
                by_cases hqq : qsrc = qdst
                · rw [if_pos hqq]
                · rw [if_neg hqq]
                  have hspec := resolvePath_spec fs linkFuel src qsrc esrc hres
                  rw [lookup_update fs _ _ _ hqne, if_neg hqq] at hlk
                  rw [hspec.1] at hlk
                  have hesrc := Option.some.inj hlk
                  rw [hesrc]
              rw [hcd, hcs]
            · unfold IsFile osStat
              rw [hresD]
              rfl
        | dir m2 => simp at h
        | symlink t2 => simp at h

/-- Source tree for the counterexample to claim C3: a directory holding a
symbolic link whose target is a directory with one file. -/
def fsSymDir : FS :=
  FS.mk [(["s"], Entry.dir 493), (["s", "ln"], Entry.symlink ["t"]),
         (["t"], Entry.dir 493), (["t", "f"], Entry.file ['h'] 420)] []

/-- Counterexample to claim C3 as stated: on a tree whose symbolic link
points at a directory, CopyDir does not copy the resolved target; it
fails with an is-a-directory error from reading the opened directory,
leaving an empty regular file at the corresponding destination. -/
theorem claim3_counterexample :
    (CopyDir fsSymDir ["s"] ["d"] true).2 = some ErrKind.isDirectory ∧
    lookupEntry (CopyDir fsSymDir ["s"] ["d"] true).1 ["d", "ln"] =
      some (Entry.file [] 438) := by
  exact ⟨by decide, by decide⟩

/-- Source tree for claim C3 amended: a directory holding a symbolic link
whose target is a regular file with arbitrary content and permissions. -/
def fsSymFile (c : List Char) (m : Nat) : FS :=
  FS.mk [(["s"], Entry.dir 493), (["s", "ln"], Entry.symlink ["t"]),
         (["t"], Entry.file c m)] []

/-- Claim C3 amended, universally over source trees: (a) CopyDir never
creates or alters a symbolic-link entry anywhere, on any state and
arguments (so no entry is ever recreated as a symbolic link at the
destination); (b) when the walk's visitor succeeds on a symbolic-link
entry under overwrite, the corresponding destination path holds exactly
the content the link resolves to, and a regular file is found there;
(c) a symbolic link resolving to a directory never lets the visitor
succeed, so the walk aborts with its error; (d) on a concrete tree with
a link to a file of arbitrary content, CopyDir end to end produces a
regular file with that content at the destination. -/
theorem claim3_amended (fs : FS) (src dst p : Path) (t : List String)
    (ovr : Bool) :
    (∀ q u,
      lookupEntry (CopyDir fs src dst ovr).1 q = some (Entry.symlink u) →
      lookupEntry fs q = some (Entry.symlink u)) ∧
    (∀ fs2, lookupEntry fs p = some (Entry.symlink t) →
      cdWalkFn src dst true p (Entry.symlink t) fs = (fs2, none) →
      contentAt fs2 (dst ++ p.drop src.length) = contentAt fs2 p ∧
        IsFile fs2 (dst ++ p.drop src.length) = true) ∧
    (∀ fs2 e q m2, lookupEntry fs p = some (Entry.symlink t) →
      resolvePath fs linkFuel p = Except.ok (q, Entry.dir m2) →
      cdWalkFn src dst true p (Entry.symlink t) fs = (fs2, e) →
      e ≠ none) ∧
    (∀ c m3, (CopyDir (fsSymFile c m3) ["s"] ["d"] true).2 = none ∧
      lookupEntry (CopyDir (fsSymFile c m3) ["s"] ["d"] true).1
        ["d", "ln"] = some (Entry.file c 511)) := by
  refine ⟨?_, ?_, ?_, fun c m3 => ⟨rfl, rfl⟩⟩
  · intro q u h
    exact walkLoop_symPres src dst ovr (fs.entries.length + 1) [src] fs q u h
  · intro fs2 hsym hcf
    have hcf2 : copyFile fs p (dst ++ p.drop src.length)
        (Entry.symlink t) true = (fs2, none) := hcf
    exact copyFile_content fs p (dst ++ p.drop src.length)
      (Entry.symlink t) fs2 hcf2
  · intro fs2 e q m2 hsym hres hcf
    have hcf2 : copyFile fs p (dst ++ p.drop src.length)
        (Entry.symlink t) true = (fs2, e) := hcf
    intro hnone
    subst hnone
    unfold copyFile at hcf2
    rw [show (Exists fs (dst ++ p.drop src.length) && !true) = false
      by simp] at hcf2
    rw [if_neg (by simp)] at hcf2
    rw [hres] at hcf2
    simp only [] at hcf2
    rcases hcr : osCreate fs (dst ++ p.drop src.length) with k | fq
    · rw [hcr] at hcf2
      simp at hcf2
    · rw [hcr] at hcf2
      obtain ⟨fs2c, qdst⟩ := fq
      simp only [] at hcf2
      obtain ⟨m0, hrw, hqne, hnsym2, rfl⟩ :=
        osCreate_ok fs (dst ++ p.drop src.length) fs2c qdst hcr
      have hnd := osCreate_ok_notdir fs (dst ++ p.drop src.length)
        (updateEntry fs qdst (Entry.file [] m0)) qdst hcr
      have hspec := resolvePath_spec fs linkFuel p q (Entry.dir m2) hres
      have hqq : q ≠ qdst := by
        intro hqq
        exact hnd m2 (by rw [← hqq]; exact hspec.1)
      have hlkq :
          lookupEntry (updateEntry fs qdst (Entry.file [] m0)) q =
            some (Entry.dir m2) := by
        rw [lookup_update fs _ _ _ hqne, if_neg hqq]
        exact hspec.1
      rw [hlkq] at hcf2
      simp at hcf2

/-- Witness state for claim C3: the file-link tree as the walk sees it
when it reaches the link, after the root step has already created the
destination directory. -/
def fsSymFileD : FS :=
  FS.mk [(["s"], Entry.dir 493), (["s", "ln"], Entry.symlink ["t"]),
         (["t"], Entry.file ['h'] 420), (["d"], Entry.dir 493)] []

/-- Witness for claim C3 amended: on the concrete tree with a symbolic
link to a file, the link entry survives CopyDir unchanged, the visitor's
copy leaves the destination with the resolved content and a regular
file there; and on the tree with a link to a directory the visitor
fails. -/
theorem claim3_witness :
    lookupEntry fsSymFileD ["s", "ln"] = some (Entry.symlink ["t"]) ∧
    (contentAt (cdWalkFn ["s"] ["d"] true ["s", "ln"]
        (Entry.symlink ["t"]) fsSymFileD).1 ["d", "ln"] =
      contentAt (cdWalkFn ["s"] ["d"] true ["s", "ln"]
        (Entry.symlink ["t"]) fsSymFileD).1 ["s", "ln"] ∧
      IsFile (cdWalkFn ["s"] ["d"] true ["s", "ln"]
        (Entry.symlink ["t"]) fsSymFileD).1 ["d", "ln"] =
        true) ∧
    (cdWalkFn ["s"] ["d"] true ["s", "ln"] (Entry.symlink ["t"])
      fsSymDir).2 ≠ none :=
  ⟨(claim3_amended fsSymFileD ["s"] ["d"] ["s", "ln"] ["t"]
      true).1 ["s", "ln"] ["t"] (by decide),
   (claim3_amended fsSymFileD ["s"] ["d"] ["s", "ln"] ["t"]
      true).2.1
     (cdWalkFn ["s"] ["d"] true ["s", "ln"] (Entry.symlink ["t"])
       fsSymFileD).1 (by decide) (by decide),
   (claim3_amended fsSymDir ["s"] ["d"] ["s", "ln"] ["t"] true).2.2.1
     (cdWalkFn ["s"] ["d"] true ["s", "ln"] (Entry.symlink ["t"])
       fsSymDir).1
     (cdWalkFn ["s"] ["d"] true ["s", "ln"] (Entry.symlink ["t"])
       fsSymDir).2
     ["t"] 493 (by decide) (by rfl) (by rfl)⟩

theorem resolve_plain_cwd_fail (env : OsEnv) (rel : List Char)
    (hgw : env.getwdResult = none) (habs : isAbsL rel = false)
    (hne : rel ≠ []) :
    absRes (goAbs env (goJoin [] rel)) = RResult.failure RErr.getwdErr := by
  unfold goJoin
  rw [if_pos rfl, if_neg hne]
  unfold goAbs
  rw [if_neg (by simp [cleanL_nonabs rel habs])]
  rw [hgw]
  rfl

theorem resolve_empty_cwd_fail (env : OsEnv)
    (hgw : env.getwdResult = none) :
    absRes (goAbs env (goJoin [] [])) = RResult.failure RErr.getwdErr := by
  unfold goJoin goAbs
  simp [hgw, isAbsL]
  rfl

/-- Claim C9: the documented exceptions fold errors exactly as stated
(IsFile, IsDir and IsSymlink fold a permission-denied query into false
while Exists folds it into true), and Resolve with an empty base path
surfaces a failure to determine the working directory: whenever the
input is non-absolute, does not panic, is not home-relative, and does
not turn absolute after the dot prefix is stripped, a failing Getwd
makes Resolve return that failure (through the Abs call, which fetches
the working directory again after the first fetch's error was
discarded). -/
theorem claim9_error_propagation (fs : FS) (p : Path) (env : OsEnv)
    (rel : List Char) :
    (p ∈ fs.denied →
      IsFile fs p = false ∧ IsDir fs p = false ∧ IsSymlink fs p = false ∧
        Exists fs p = true) ∧
    (env.getwdResult = none → isAbsL rel = false → rel ≠ [] →
      (rel.get? 0 = some '~' →
        rel.get? 1 ≠ none ∧ rel.get? 1 ≠ some '/' ∧ rel.get? 1 ≠ some '\\') →
      (rel.get? 0 = some '.' → rel.get? 1 ≠ none) →
      (rel.get? 0 = some '.' →
        (rel.get? 1 = some '/' ∨ rel.get? 1 = some '\\') →
        isAbsL (rel.drop 2) = false) →
      Resolve env rel [] = RResult.failure RErr.getwdErr) := by
  constructor
  · intro hd
    have h40 : linkFuel = Nat.succ 39 := rfl
    refine ⟨?_, ?_, ?_, ?_⟩
    · unfold IsFile osStat
      rw [h40, resolvePath]
      simp [hd]
    · unfold IsDir osStat
      rw [h40, resolvePath]
      simp [hd]
    · unfold IsSymlink osLstat
      simp [hd]
    · unfold Exists osStat
      rw [h40, resolvePath]
      simp [hd, isNotExistRes, Except.isOk, Except.toBool]
  · intro hgw habs hne htilde hdot1 hdot2
    cases rel with
    | nil => exact absurd rfl hne
    | cons c0 rest =>
        unfold Resolve
        rw [if_neg (by simp [habs])]
        simp only [hgw, List.get?, ite_true, if_pos]
        simp only [List.get?] at htilde hdot1 hdot2
        by_cases hc0 : c0 = '~'
        · subst hc0
          obtain ⟨hn1, hn2, hn3⟩ := htilde rfl
          rw [if_pos rfl]
          cases rest with
          | nil => exact absurd rfl hn1
          | cons c1 rest2 =>
              simp only [List.get?] at hn2 hn3 ⊢
              have hsep : ¬ (c1 = '/' ∨ c1 = '\\') := by
                rintro (h3 | h3)
                · exact hn2 (by rw [h3])
                · exact hn3 (by rw [h3])
              rw [if_neg hsep]
              exact resolve_plain_cwd_fail env _ hgw habs (by simp)
        · rw [if_neg hc0]
          by_cases hdc : c0 = '.'
          · subst hdc
            rw [if_pos rfl]
            cases rest with
            | nil => exact absurd rfl (hdot1 rfl)
            | cons c1 rest2 =>
                simp only [List.get?] at hdot2 ⊢
                by_cases hsep : c1 = '/' ∨ c1 = '\\'
                · rw [if_pos hsep]
                  have hdrop : ('.' :: c1 :: rest2).drop 2 = rest2 := rfl
                  rw [hdrop]
                  have habs2 : isAbsL rest2 = false := by
                    have := hdot2 trivial (by
                      rcases hsep with h3 | h3
                      · exact Or.inl (by rw [h3])
                      · exact Or.inr (by rw [h3]))
                    rw [hdrop] at this
                    exact this
                  cases rest2 with
                  | nil => exact resolve_empty_cwd_fail env hgw
                  | cons c2 rest3 =>
                      exact resolve_plain_cwd_fail env _ hgw habs2 (by simp)
                · rw [if_neg hsep]
                  exact resolve_plain_cwd_fail env _ hgw habs (by simp)
          · rw [if_neg hdc]
            exact resolve_plain_cwd_fail env _ hgw habs (by simp)

/-- Witness for claim C9: on a concrete state, a denied path folds into
IsFile false yet Exists true, and Resolve of a plain relative path with
an empty base returns the working-directory failure. -/
theorem claim9_witness :
    IsFile fsC1 ["p"] = false ∧ Exists fsC1 ["p"] = true ∧
    Resolve (OsEnv.mk none (some ['/', 'h'])) ['x', 'y'] [] =
      RResult.failure RErr.getwdErr :=
  ⟨((claim9_error_propagation fsC1 ["p"] (OsEnv.mk none (some ['/', 'h']))
      ['x', 'y']).1 (by decide)).1,
   ((claim9_error_propagation fsC1 ["p"] (OsEnv.mk none (some ['/', 'h']))
      ['x', 'y']).1 (by decide)).2.2.2,
   (claim9_error_propagation fsC1 ["p"] (OsEnv.mk none (some ['/', 'h']))
      ['x', 'y']).2 rfl (by decide) (by decide) (by decide) (by decide)
      (by decide)⟩

end xfs
